import Mathlib

/-!
# Retention policy engine of harbor-go-client (`utils/retention_policy.go`)

A shallow embedding of the decision logic of `grade`, `repoAnalyse`,
`repoErase` and `tagAnalyseAndErase`, followed by the theorems that settle the
properties stated about them.

Conventions of the embedding.

* Go `int` values are `Int`.  Instants are nanoseconds since the Unix epoch
  (`Int`), a `time.Duration` is an `Int` count of nanoseconds saturated to the
  64-bit range exactly as `Time.Sub` does.
* A `float64` value is the rational number it denotes.  Every `float64`
  operation is the exact operation followed by `roundFloat64`, rounding to
  the nearest binary64 value with ties to even; the ages computed here are
  below 2^22 in magnitude, so overflow does not arise.  `int(x)` truncates
  toward zero.
* The `float32` arithmetic of `grade` is kept abstract (`Float32Ops`): the
  theorems hold for every interpretation of `+`, `*`, `0`, `1` and `== 0`
  in which `0 == 0`.  Concrete evaluations use the rationals.
* Printing is not modelled except where a printed line is what a property
  speaks of; HTTP requests are recorded as the list of targets they name.
-/

namespace RetentionPolicy

/-! ## Time -/

/-- A timestamp field as received from the registry: either text that
`time.Parse(time.RFC3339, _)` accepts, standing for an instant, or text that
it rejects. -/
inductive TimeString where
  | valid (instant : Int)
  | malformed
  deriving DecidableEq, Repr

/-- The function `rfc3339Transform`: the parsed instant, or `none` when the
process exits with status 1 on a parse error. -/
def rfc3339Transform : TimeString → Option Int
  | TimeString.valid t => some t
  | TimeString.malformed => none

/-- Least `time.Duration`. -/
def minDuration : Int := -(2 ^ 63)

/-- Greatest `time.Duration`. -/
def maxDuration : Int := 2 ^ 63 - 1

/-- The constant `time.Hour` in nanoseconds. -/
def Hour : Int := 3600000000000

/-- The method `Time.Sub`: the difference `t - u`, saturated. -/
def timeSub (t u : Int) : Int :=
  if t - u < minDuration then minDuration
  else if maxDuration < t - u then maxDuration
  else t - u

/-- The integer nearest to `m`, the even one of the two when `m` lies halfway
between them. -/
def roundHalfEven (m : ℚ) : Int :=
  if m - (⌊m⌋ : ℚ) < 1 / 2 then ⌊m⌋
  else if 1 / 2 < m - (⌊m⌋ : ℚ) then ⌊m⌋ + 1
  else if ⌊m⌋ % 2 = 0 then ⌊m⌋ else ⌊m⌋ + 1

/-- The exponent of the unit in the last place of the binary64 values around
`x`: 53 significant bits, and -1074 in the subnormal range. -/
def float64Exp (x : ℚ) : Int :=
  max (Int.log 2 |x| - 52) (-1074)

/-- The binary64 value a `float64` operation returns for the exact result `x`:
the nearest multiple of `2 ^ float64Exp x`, ties to even. -/
def roundFloat64 (x : ℚ) : ℚ :=
  if x = 0 then 0
  else (roundHalfEven (x / (2 : ℚ) ^ float64Exp x) : ℚ) * (2 : ℚ) ^ float64Exp x

/-- The conversion `float64(n)` of an integer. -/
def float64OfInt (n : Int) : ℚ :=
  roundFloat64 (n : ℚ)

/-- The method `Duration.Hours`: `float64(d / Hour) + float64(d % Hour) / (60*60*1e9)`
with Go's truncated integer division and `float64` arithmetic. -/
def durationHours (d : Int) : ℚ :=
  roundFloat64 (float64OfInt (d.tdiv Hour)
    + roundFloat64 (float64OfInt (d.tmod Hour) / (60 * 60 * 1000000000)))

/-- The expression `time.Now().Sub(t).Hours() / 24`. -/
def daysSince (now t : Int) : ℚ :=
  roundFloat64 (durationHours (timeSub now t) / 24)

/-- Go's conversion `int(x)` of a floating-point value: truncation toward zero. -/
def goInt (x : ℚ) : Int :=
  x.num.tdiv (x.den : Int)

/-- The method `Time.Unix`: whole seconds since the epoch, rounded down. -/
def timeUnix (t : Int) : Int :=
  t / 1000000000

/-! ## Policy and scoring -/

/-- The `float32` operations `grade` relies on.  `eqZero x` is the comparison
`x == float32(0)`. -/
class Float32Ops (F : Type) extends Zero F, One F, Add F, Mul F where
  eqZero : F → Bool
  eqZero_zero : eqZero 0 = true

instance : Float32Ops ℚ :=
  { (inferInstance : Zero ℚ), (inferInstance : One ℚ),
    (inferInstance : Add ℚ), (inferInstance : Mul ℚ) with
    eqZero := fun q => decide (q = 0)
    eqZero_zero := by simp }

/-- The `range` section of a factor: the half-open interval `[Low, High)`. -/
structure factorRange where
  Low : Int
  High : Int
  deriving DecidableEq, Repr

/-- One entry of a `factors` list. -/
structure factor (F : Type) where
  Weight : F
  Range : factorRange

/-- One of the three sections of `retentionPolicy`. -/
structure factorSpec (F : Type) where
  Base : F
  Factors : List (factor F)

/-- The struct `retentionPolicy`. -/
structure retentionPolicy (F : Type) where
  UpdateTime : factorSpec F
  PullCount : factorSpec F
  TagsCount : factorSpec F

/-- The struct `repoTop`. -/
structure repoTop where
  ID : Int
  Name : String
  ProjectID : Int
  Description : String
  PullCount : Int
  StarCount : Int
  TagsCount : Int
  CreationTime : String
  UpdateTime : TimeString
  deriving DecidableEq, Repr

/-- The test `f.Range.Low <= v && v < f.Range.High`. -/
def inRange (rg : factorRange) (v : Int) : Bool :=
  decide (rg.Low ≤ v) && decide (v < rg.High)

/-- One `for _, f := range Factors { if ... { w = f.Weight; break } }` loop of
`grade`: `w` is the value of the variable on entry, the result its value on
exit. -/
def scanFactors {F : Type} : List (factor F) → Int → F → F
  | [], _, w => w
  | f :: rest, v, w => if inRange f.Range v then f.Weight else scanFactors rest v w

/-- The values of `uf`, `pf`, `tf` and `score` that `grade` prints in its
`[factors]` line. -/
structure gradeFactors (F : Type) where
  uf : F
  pf : F
  tf : F
  score : F

/-- The body of `grade` once the update time has been parsed; `day` is the
`float64` age in days. -/
def gradeAt {F : Type} [Float32Ops F] (day : ℚ) (r : repoTop) (rp : retentionPolicy F) :
    gradeFactors F :=
  let uf := scanFactors rp.UpdateTime.Factors (goInt day) 0
  let uf := if Float32Ops.eqZero uf then 0 else uf
  let pf := scanFactors rp.PullCount.Factors r.PullCount 0
  let pf := if Float32Ops.eqZero pf then 1 else pf
  let tf := scanFactors rp.TagsCount.Factors r.TagsCount 0
  let tf := if Float32Ops.eqZero tf then 1 else tf
  { uf := uf, pf := pf, tf := tf,
    score := rp.UpdateTime.Base * uf + rp.PullCount.Base * pf + rp.TagsCount.Base * tf }

/-- The function `grade` together with the factors it reports; `none` when
`rfc3339Transform` exits the process. -/
def gradeTrace {F : Type} [Float32Ops F] (now : Int) (r : repoTop) (rp : retentionPolicy F) :
    Option (gradeFactors F) :=
  match rfc3339Transform r.UpdateTime with
  | none => none
  | some t => some (gradeAt (daysSince now t) r rp)

/-- The function `grade`: the score of a repository under a policy at the
instant `now`. -/
def grade {F : Type} [Float32Ops F] (now : Int) (r : repoTop) (rp : retentionPolicy F) :
    Option F :=
  (gradeTrace now r rp).map gradeFactors.score

/-! ## Heaps -/

/-- Modelled from the spec: the heap types of the package (`minheap` behind
`minh` and `mhBk`, `tagminheap` behind `tagmh`, with their `Len`, `Less`,
`Swap`, `Push` and `Pop` methods) are declared outside this source file.
Section 4.2 of the specification describes a min-heap whose `pop` removes and
returns the current minimum and fails on an empty heap.  A heap is modelled by
the list of its elements, and `extractMin le x xs` splits the non-empty
content `x :: xs` into a least element under `le` and the remaining ones. -/
def extractMin {α : Type} (le : α → α → Bool) : α → List α → α × List α
  | x, [] => (x, [])
  | x, y :: ys =>
    if le x y then ((extractMin le x ys).1, y :: (extractMin le x ys).2)
    else ((extractMin le y ys).1, x :: (extractMin le y ys).2)

/-- Modelled from the spec: `heap.Push` on one of the missing heap types; the
element joins the content. -/
def heapPush {α : Type} (x : α) (h : List α) : List α :=
  x :: h

/-- Modelled from the spec: `heap.Pop` on one of the missing heap types;
`none` stands for the failure on an empty heap. -/
def heapPop {α : Type} (le : α → α → Bool) : List α → Option (α × List α)
  | [] => none
  | x :: xs => some (extractMin le x xs)

/-- The loop `for h.Len() > 0 { it := heap.Pop(&h) ... }`: the elements in
the order in which they are popped. -/
def heapDrain {α : Type} (le : α → α → Bool) (h : List α) : List α :=
  match h with
  | [] => []
  | x :: xs => (extractMin le x xs).1 :: heapDrain le (extractMin le x xs).2
termination_by h.length
decreasing_by
  have hlen : ∀ (ys : List α) (y : α), (extractMin le y ys).2.length = ys.length := by
    intro ys
    induction ys with
    | nil => intro _; simp [extractMin]
    | cons z zs ih =>
      intro y
      simp only [extractMin]
      split <;> simp [ih]
  simp [hlen]

/-- Modelled from the spec: the struct `repoItem` built in `repoAnalyse`
(`data` and `score` are the two fields the source sets). -/
structure repoItem (F : Type) where
  data : repoTop
  score : F

/-- Modelled from the spec: the order of the ranking heap, by score ascending
and, for equal scores, by candidate id ascending. -/
def repoLe {F : Type} [LinearOrder F] (a b : repoItem F) : Bool :=
  decide (a.score < b.score) || (decide (a.score = b.score) && decide (a.data.ID ≤ b.data.ID))

/-- Modelled from the spec: the struct `tagItem` built in
`tagAnalyseAndErase`. -/
structure tagItem where
  tagName : String
  timestamp : Int
  deriving DecidableEq, Repr

/-- Modelled from the spec: the order of the tag eviction heap, by creation
time ascending and, for equal timestamps, by tag name ascending. -/
def tagLe (a b : tagItem) : Bool :=
  decide (a.timestamp < b.timestamp) ||
    (decide (a.timestamp = b.timestamp) && decide (a.tagName ≤ b.tagName))

/-- The content of a ranking heap (`minh`, `mhBk`). -/
abbrev minheap (F : Type) := List (repoItem F)

/-- The content of the tag eviction heap (`tagmh`). -/
abbrev tagminheap := List tagItem

/-! ## Repository ranking -/

/-- The loop `for _, r := range repos` of `repoAnalyse`: every repository is
graded at the instant it is reached and pushed onto both heaps; `none` when
`grade` exits the process. -/
def repoPushAll {F : Type} [Float32Ops F] (rp : retentionPolicy F) :
    List (Int × repoTop) → minheap F → minheap F → Option (minheap F × minheap F)
  | [], minh, mhBk => some (minh, mhBk)
  | (now, r) :: rest, minh, mhBk =>
    match grade now r rp with
    | none => none
    | some sc =>
      repoPushAll rp rest (heapPush { data := r, score := sc } minh)
        (heapPush { data := r, score := sc } mhBk)

/-- What `repoAnalyse` leaves behind: the consumption heap `minh`, the listing
heap `mhBk` and the lines of the ranking it printed. -/
structure analyseResult (F : Type) where
  minh : minheap F
  mhBk : minheap F
  listing : List (repoItem F)

/-- The part of `repoAnalyse` that follows the network reads (from
`heap.Init(&minh)` on), started on empty heaps: `rp` is the loaded policy and
`repos` the decoded repositories, each with the reading of `time.Now()` taken
when it is graded. -/
def repoAnalyse {F : Type} [Float32Ops F] [LinearOrder F] (rp : retentionPolicy F)
    (repos : List (Int × repoTop)) : Option (analyseResult F) :=
  match repoPushAll rp repos [] [] with
  | none => none
  | some (minh, mhBk) => some { minh := minh, mhBk := [], listing := heapDrain repoLe mhBk }

/-! ## Interactive repository eviction -/

/-- The value of an ASCII decimal digit. -/
def digitVal (c : Char) : Option Nat :=
  if 48 ≤ c.toNat ∧ c.toNat ≤ 57 then some (c.toNat - 48) else none

/-- The digits of a decimal numeral, most significant first, folded into
`acc`; `none` on a character that is not a digit. -/
def parseDigits : List Char → Nat → Option Nat
  | [], acc => some acc
  | c :: cs, acc =>
    match digitVal c with
    | none => none
    | some d => parseDigits cs (acc * 10 + d)

/-- The function `strconv.Atoi` on a 64-bit platform: an optional sign, then
at least one decimal digit, the value within the `int` range; `none` stands
for a non-nil error. -/
def atoi (s : String) : Option Int :=
  match s.toList with
  | [] => none
  | c :: cs =>
    if c = '-' then
      (if cs = [] then none
       else (parseDigits cs 0).bind fun n => if n ≤ 2 ^ 63 then some (-(n : Int)) else none)
    else if c = '+' then
      (if cs = [] then none
       else (parseDigits cs 0).bind fun n => if n < 2 ^ 63 then some (n : Int) else none)
    else (parseDigits (c :: cs) 0).bind fun n => if n < 2 ^ 63 then some (n : Int) else none

/-- The test `strings.EqualFold(confirm, "y")`. -/
def equalFoldY (s : String) : Bool :=
  decide (s = "y") || decide (s = "Y")

/-- The prompt loop of `repoErase` (`for scanner.Scan() { ... }`) over the
lines the scanner delivers: the value of `num` when the loop is left. -/
def promptLoop : List String → Int
  | [] => 0
  | l :: rest =>
    match atoi l with
    | none => promptLoop rest
    | some n =>
      match rest with
      | [] => 0
      | c :: rest2 => if equalFoldY c then n else promptLoop rest2

/-- The errors `repoErase` returns. -/
inductive eraseError where
  | scan (msg : String)
  | outOfRange
  | cookie (msg : String)
  deriving DecidableEq, Repr

/-- How a run ends: the function returns (`nil` or an error), the process
exits in `rfc3339Transform`, or a pop on an empty heap panics. -/
inductive runStatus (E : Type) where
  | returned (err : Option E)
  | exited
  | panicked
  deriving DecidableEq, Repr

/-- A `DELETE /api/repositories/{repo}` request with its session cookie. -/
structure repoDelete where
  repo : String
  session : String
  deriving DecidableEq, Repr

/-- The observable result of `repoErase`: how it ended, the deletion requests
it issued in order, and the consumption heap it leaves. -/
structure eraseResult (F : Type) where
  status : runStatus eraseError
  deletes : List repoDelete
  minh : minheap F

/-- The deletion loop of `repoErase` (`for num > 0 { ... num-- }`).
`cookieLoad k` is the result of the call of `CookieLoad` made after `k`
earlier calls; `calls` counts the calls made, `ds` the requests issued. -/
def eraseLoop {F : Type} [LinearOrder F] (cookieLoad : Nat → Except String String)
    (num : Int) (calls : Nat) (minh : minheap F) (ds : List repoDelete) : eraseResult F :=
  if 0 < num then
    if 0 < minh.length then
      match heapPop repoLe minh with
      | none => { status := runStatus.panicked, deletes := ds, minh := minh }
      | some (it, rest) =>
        match cookieLoad calls with
        | Except.error e =>
          { status := runStatus.returned (some (eraseError.cookie e)), deletes := ds, minh := rest }
        | Except.ok c =>
          eraseLoop cookieLoad (num - 1) (calls + 1) rest
            (ds ++ [{ repo := it.data.Name, session := c }])
    else eraseLoop cookieLoad (num - 1) calls minh ds
  else { status := runStatus.returned none, deletes := ds, minh := minh }
termination_by num.toNat
decreasing_by
  all_goals simp_wf
  all_goals omega

/-- The function `repoErase`.  `lines` are the lines the scanner delivers
before `Scan` returns false, `scanErr` the value of `scanner.Err()` after the
prompt loop, `minh` the consumption heap left by `repoAnalyse`. -/
def repoErase {F : Type} [LinearOrder F] (lines : List String) (scanErr : Option String)
    (cookieLoad : Nat → Except String String) (minh : minheap F) : eraseResult F :=
  let num := promptLoop lines
  match scanErr with
  | some e => { status := runStatus.returned (some (eraseError.scan e)), deletes := [], minh := minh }
  | none =>
    if num ≤ 0 ∨ 50 < num then
      { status := runStatus.returned (some eraseError.outOfRange), deletes := [], minh := minh }
    else eraseLoop cookieLoad num 0 minh []

/-! ## Tag eviction -/

/-- The struct `tagsRetentionPolicy`: the flags of `rp_tags`. -/
structure tagsRetentionPolicy where
  Day : Int
  Max : Int
  RepoName : String
  DryRun : Bool
  deriving DecidableEq, Repr

/-- The struct `tagInfo`. -/
structure tagInfo where
  Digest : String
  Name : String
  Architecture : String
  DockerVersion : String
  Author : String
  Created : TimeString
  Signature : String
  deriving DecidableEq, Repr

/-- The struct `repoSearch`. -/
structure repoSearch where
  ProjectID : Int
  ProjectName : String
  ProjectPublic : Bool
  PullCount : Int
  RepositoryName : String
  TagsCount : Int
  deriving DecidableEq, Repr

/-- A `DELETE /api/repositories/{repo}/tags/{tag}` request with its session
cookie. -/
structure tagDelete where
  repo : String
  tag : String
  session : String
  deriving DecidableEq, Repr

/-- The lines `tagAnalyseAndErase` prints for one repository that carry
information: a row of the tag table (starred when the tag is pushed), the two
counts, the `DO NOTHING` line, the `START DELETING` line, a `[POP]` line, a
`==> DELETE` line, and the dry-run notice. -/
inductive tagPrint where
  | row (starred : Bool) (name : String) (dayPast : ℚ)
  | counts (younger older : Int)
  | doNothing
  | startDeleting
  | pop (name : String) (timestamp : Int)
  | deleteURL (repo : String) (tag : String)
  | dryRunNotice
  deriving DecidableEq, Repr

/-- The state `tagAnalyseAndErase` works on: the heap `tagmh`, the deletion
requests issued so far and the lines printed so far. -/
structure tagState where
  tagmh : tagminheap
  deletes : List tagDelete
  out : List tagPrint
  deriving DecidableEq, Repr

/-- The loop `for _, t := range tlRsp` of `tagAnalyseAndErase`: each tag comes
with the reading of `time.Now()` taken when it is examined; `none` when
`rfc3339Transform` exits the process. -/
def tagPartition (Day : Int) : List (Int × tagInfo) → tagState → Option tagState
  | [], s => some s
  | (now, t) :: rest, s =>
    match rfc3339Transform t.Created with
    | none => none
    | some tagC =>
      if Day < goInt (daysSince now tagC) then
        tagPartition Day rest
          { s with
            tagmh := heapPush { tagName := t.Name, timestamp := timeUnix tagC } s.tagmh
            out := s.out ++ [tagPrint.row true t.Name (daysSince now tagC)] }
      else
        tagPartition Day rest
          { s with out := s.out ++ [tagPrint.row false t.Name (daysSince now tagC)] }

/-- The result of the eviction loop: whether a pop on an empty heap panicked,
the final value of the counter `gtNdays`, and the state. -/
structure evictResult where
  panicked : Bool
  gtNdays : Int
  state : tagState
  deriving DecidableEq, Repr

/-- The loop `for gtNdays > tagsRP.Max { ... gtNdays-- }` of the branch
without `--dry-run`. -/
def evictLoop (repo session : String) (Max : Int) (gtNdays : Int) (s : tagState) :
    evictResult :=
  if Max < gtNdays then
    match heapPop tagLe s.tagmh with
    | none => { panicked := true, gtNdays := gtNdays, state := s }
    | some (it, rest) =>
      evictLoop repo session Max (gtNdays - 1)
        { tagmh := rest
          deletes := s.deletes ++ [{ repo := repo, tag := it.tagName, session := session }]
          out := s.out ++ [tagPrint.pop it.tagName it.timestamp, tagPrint.deleteURL repo it.tagName] }
  else { panicked := false, gtNdays := gtNdays, state := s }
termination_by (gtNdays - Max).toNat
decreasing_by
  simp_wf
  omega

/-- The part of the body of `for _, r := range scRsp.Repository` that follows
the partition: step "b", on the state `s` with the candidates in `s.tagmh`. -/
def tagEvict (cfg : tagsRetentionPolicy) (session : String) (r : repoSearch) (s : tagState) :
    evictResult :=
  let gtNdays : Int := (s.tagmh.length : Int)
  let s1 : tagState := { s with out := s.out ++ [tagPrint.counts (r.TagsCount - gtNdays) gtNdays] }
  if gtNdays ≤ cfg.Max then
    { panicked := false, gtNdays := gtNdays,
      state := { s1 with out := s1.out ++ [tagPrint.doNothing] } }
  else if cfg.DryRun = false then
    evictLoop r.RepositoryName session cfg.Max gtNdays
      { s1 with out := s1.out ++ [tagPrint.startDeleting] }
  else
    { panicked := false, gtNdays := gtNdays,
      state := { s1 with out := s1.out ++ [tagPrint.startDeleting, tagPrint.dryRunNotice] } }

/-- The body of `for _, r := range scRsp.Repository` once the tag list of `r`
has been fetched: the heap is reset, the tags are partitioned, the excess is
evicted.  The status is `none` when the body completes. -/
def tagRepo (cfg : tagsRetentionPolicy) (session : String) (r : repoSearch)
    (tags : List (Int × tagInfo)) (s : tagState) : Option (runStatus String) × tagState :=
  match tagPartition cfg.Day tags { s with tagmh := [] } with
  | none => (some runStatus.exited, s)
  | some s1 =>
    let res := tagEvict cfg session r s1
    (if res.panicked then some runStatus.panicked else none, res.state)

/-- The loop over the repositories of `tagAnalyseAndErase`: each repository
comes with the outcome of the request for its tag list. -/
def tagRepos (cfg : tagsRetentionPolicy) (session : String) :
    List (repoSearch × Except String (List (Int × tagInfo))) → tagState →
      runStatus String × tagState
  | [], s => (runStatus.returned none, s)
  | (_, Except.error e) :: _, s => (runStatus.returned (some e), s)
  | (r, Except.ok tags) :: rest, s =>
    match tagRepo cfg session r tags s with
    | (some st, s1) => (st, s1)
    | (none, s1) => tagRepos cfg session rest s1

/-- The function `tagAnalyseAndErase`: `cookie` is the outcome of
`CookieLoad`, `search` that of the `/api/search` request. -/
def tagAnalyseAndErase (cfg : tagsRetentionPolicy) (cookie : Except String String)
    (search : Except String (List (repoSearch × Except String (List (Int × tagInfo))))) :
    runStatus String × tagState :=
  match cookie with
  | Except.error e => (runStatus.returned (some e), { tagmh := [], deletes := [], out := [] })
  | Except.ok session =>
    match search with
    | Except.error e => (runStatus.returned (some e), { tagmh := [], deletes := [], out := [] })
    | Except.ok repos => tagRepos cfg session repos { tagmh := [], deletes := [], out := [] }

/-! ## Reference definitions and fixtures -/

/-- The weight a metric receives according to section 4.1 of the
specification: that of the first bucket in policy order containing `v`, and
`dflt` when no bucket contains it. -/
def specWeight {F : Type} (fs : List (factor F)) (v : Int) (dflt : F) : F :=
  match fs.find? (fun f => inRange f.Range v) with
  | some f => f.Weight
  | none => dflt

/-- The closed form of section 4.1: `base_u * w_u + base_p * w_p + base_t * w_t`
with default weight 0 for update recency and 1 for the two counts. -/
def specScore {F : Type} [Float32Ops F] (ageDays : Int) (r : repoTop) (rp : retentionPolicy F) : F :=
  rp.UpdateTime.Base * specWeight rp.UpdateTime.Factors ageDays 0 +
    rp.PullCount.Base * specWeight rp.PullCount.Factors r.PullCount 1 +
    rp.TagsCount.Base * specWeight rp.TagsCount.Factors r.TagsCount 1

/-- A repository updated at the instant `updated`, with the given id, name,
pull count and tag count. -/
def mkRepo (id : Int) (name : String) (pulls tags : Int) (updated : Int) : repoTop :=
  { ID := id, Name := name, ProjectID := 1, Description := "", PullCount := pulls,
    StarCount := 0, TagsCount := tags, CreationTime := "",
    UpdateTime := TimeString.valid updated }

/-- A bucket `[low, high)` with weight `w`. -/
def mkFactor {F : Type} (w : F) (low high : Int) : factor F :=
  { Weight := w, Range := { Low := low, High := high } }

/-- The policy of the scoring scenario: update recency with base 10 and the
bucket `[0, 30)` of weight 1, pull count with base 5 and a bucket `[10, 100)`,
tag count with base 2 and no bucket. -/
def scenarioPolicy : retentionPolicy ℚ :=
  { UpdateTime := { Base := 10, Factors := [mkFactor 1 0 30] }
    PullCount := { Base := 5, Factors := [mkFactor 3 10 100] }
    TagsCount := { Base := 2, Factors := [] } }

/-- The same policy with a pull-count bucket `[0, 10)` of configured weight 0. -/
def zeroWeightPolicy : retentionPolicy ℚ :=
  { UpdateTime := { Base := 10, Factors := [mkFactor 1 0 30] }
    PullCount := { Base := 5, Factors := [mkFactor 0 0 10] }
    TagsCount := { Base := 2, Factors := [] } }

/-- The repository of the scoring scenario: 5 pulls, 3 tags, updated at
instant 0. -/
def scenarioRepo : repoTop := mkRepo 7 "library/app" 5 3 0

/-- Ten days after instant 0. -/
def tenDays : Int := 864000000000000

/-- A repository whose update time is twelve hours after instant 0. -/
def futureRepo : repoTop := mkRepo 8 "library/new" 5 3 43200000000000

/-- The states of the interactive controller of section 4.3 of the
specification. -/
inductive promptState where
  | awaitingNumber
  | awaitingConfirmation (n : Int)
  | validated (n : Int)
  deriving DecidableEq, Repr

/-- One transition of the controller of section 4.3 on a line of input:
a line that parses as an integer moves `awaitingNumber` to
`awaitingConfirmation`, any other line leaves it there; in
`awaitingConfirmation` the line `y` (in either case) validates the number and
any other line returns to `awaitingNumber`; `validated` is terminal. -/
def promptStep : promptState → String → promptState
  | promptState.awaitingNumber, l =>
    match atoi l with
    | some n => promptState.awaitingConfirmation n
    | none => promptState.awaitingNumber
  | promptState.awaitingConfirmation n, l =>
    if equalFoldY l then promptState.validated n else promptState.awaitingNumber
  | promptState.validated n, _ => promptState.validated n

/-- The state of the controller of section 4.3 when the input stream ends. -/
def promptRun (lines : List String) : promptState :=
  lines.foldl promptStep promptState.awaitingNumber

/-- A ranking-heap candidate with the given id, name and score. -/
def mkItem (id : Int) (name : String) (score : ℚ) : repoItem ℚ :=
  { data := mkRepo id name 0 0 0, score := score }

/-- A consumption heap holding three candidates, pushed in the order
`b` (score 5), `a` (score 2), `c` (score 5). -/
def sampleHeap : minheap ℚ :=
  heapPush (mkItem 3 "c" 5) (heapPush (mkItem 1 "a" 2) (heapPush (mkItem 2 "b" 5) []))

/-- A credential store whose every load succeeds with the session `sid`. -/
def cookieOk : Nat → Except String String :=
  fun _ => Except.ok "sid"

/-- A tag with the given name created at the instant `created`. -/
def mkTag (name : String) (created : Int) : tagInfo :=
  { Digest := "", Name := name, Architecture := "", DockerVersion := "", Author := "",
    Created := TimeString.valid created, Signature := "" }

/-- A search result for the repository `name` with `tags` tags. -/
def mkSearch (name : String) (tags : Int) : repoSearch :=
  { ProjectID := 1, ProjectName := "library", ProjectPublic := true, PullCount := 0,
    RepositoryName := name, TagsCount := tags }

/-- The empty state of the tag engine. -/
def emptyTagState : tagState :=
  { tagmh := [], deletes := [], out := [] }

/-- One hundred days after instant 0, in nanoseconds. -/
def hundredDays : Int := 8640000000000000

/-- The tags of the eviction scenario, read one hundred days after instant 0:
`A` is 40 days old, `B` 20 days old, `C` 50 days old. -/
def scenarioTags : List (Int × tagInfo) :=
  [(hundredDays, mkTag "A" 5184000000000000),
   (hundredDays, mkTag "B" 6912000000000000),
   (hundredDays, mkTag "C" 4320000000000000)]

/-- The flags `--day 30 --max 1` with the given `--dry-run` setting. -/
def scenarioFlags (dryRun : Bool) : tagsRetentionPolicy :=
  { Day := 30, Max := 1, RepoName := "", DryRun := dryRun }

/-- The names of the tags that the eviction phase reports, one per `[POP]`
line. -/
def poppedNames : List tagPrint → List String
  | [] => []
  | tagPrint.pop name _ :: rest => name :: poppedNames rest
  | _ :: rest => poppedNames rest

/-- The names of the tags starred in the table of the partition phase. -/
def starredNames : List tagPrint → List String
  | [] => []
  | tagPrint.row true name _ :: rest => name :: starredNames rest
  | _ :: rest => starredNames rest

/-- Whether the partition phase pushes a tag: its timestamp parses and the
threshold is below its truncated age. -/
def isCandidate (Day : Int) (p : Int × tagInfo) : Bool :=
  match rfc3339Transform p.2.Created with
  | some c => decide (Day < goInt (daysSince p.1 c))
  | none => false

/-- The heap entry of a tag. -/
def toTagItem (p : Int × tagInfo) : tagItem :=
  match rfc3339Transform p.2.Created with
  | some c => { tagName := p.2.Name, timestamp := timeUnix c }
  | none => { tagName := p.2.Name, timestamp := 0 }

/-! ## Arithmetic of ages -/

theorem goInt_of_nonneg (x : ℚ) (hx : 0 ≤ x) : goInt x = ⌊x⌋ := by
  unfold goInt
  rw [Int.tdiv_eq_ediv (Rat.num_nonneg.mpr hx) (Int.ofNat_nonneg _), Rat.floor_def]

theorem goInt_neg (x : ℚ) : goInt (-x) = -goInt x := by
  unfold goInt
  rw [Rat.neg_num, Rat.neg_den, Int.neg_tdiv]

theorem goInt_intCast_div (a : Int) (b : Nat) (hb : 0 < b) :
    goInt ((a : ℚ) / (b : ℚ)) = a.tdiv (b : Int) := by
  have hbq : (0 : ℚ) < (b : ℚ) := by exact_mod_cast hb
  rcases le_or_lt 0 a with ha | ha
  · have hq : (0 : ℚ) ≤ (a : ℚ) / (b : ℚ) := div_nonneg (by exact_mod_cast ha) hbq.le
    rw [goInt_of_nonneg _ hq, Rat.floor_intCast_div_natCast,
      Int.tdiv_eq_ediv ha (Int.ofNat_nonneg _)]
  · have hna : 0 ≤ -a := by omega
    have hq : (0 : ℚ) ≤ ((-a : Int) : ℚ) / (b : ℚ) := div_nonneg (by exact_mod_cast hna) hbq.le
    have h1 : (a : ℚ) / (b : ℚ) = -(((-a : Int) : ℚ) / (b : ℚ)) := by
      push_cast; ring
    rw [h1, goInt_neg, goInt_of_nonneg _ hq, Rat.floor_intCast_div_natCast,
      ← Int.tdiv_eq_ediv hna (Int.ofNat_nonneg _), Int.neg_tdiv, neg_neg]

theorem goInt_intCast (n : Int) : goInt (n : ℚ) = n := by
  simp [goInt]

theorem roundHalfEven_intCast (n : Int) : roundHalfEven (n : ℚ) = n := by
  simp [roundHalfEven]

/-- Rounding leaves a binary64 value unchanged: an integer of fewer than 54
bits times a power of two not below the least subnormal. -/
theorem roundFloat64_dyadic (n q : Int) (hn : |n| < 2 ^ 53) (hq : -1074 ≤ q) :
    roundFloat64 ((n : ℚ) * (2 : ℚ) ^ q) = (n : ℚ) * (2 : ℚ) ^ q := by
  by_cases h0 : n = 0
  · subst h0
    simp [roundFloat64]
  · have h2 : (0 : ℚ) < (2 : ℚ) ^ q := zpow_pos (by norm_num) q
    have hx : (n : ℚ) * (2 : ℚ) ^ q ≠ 0 := by
      apply mul_ne_zero
      · exact_mod_cast h0
      · exact h2.ne'
    have habs : |(n : ℚ) * (2 : ℚ) ^ q| < ((2 : ℕ) : ℚ) ^ (q + 53) := by
      rw [abs_mul, abs_of_pos h2, zpow_add₀ (by norm_num : ((2 : ℕ) : ℚ) ≠ 0), mul_comm]
      have hn2 : |(n : ℚ)| < ((2 : ℕ) : ℚ) ^ (53 : Int) := by
        have hc : ((|n| : Int) : ℚ) < ((2 ^ 53 : Int) : ℚ) := by exact_mod_cast hn
        norm_num at hc ⊢
        exact hc
      have h2c : ((2 : ℕ) : ℚ) ^ q = (2 : ℚ) ^ q := by norm_num
      rw [h2c]
      exact mul_lt_mul_of_pos_left hn2 h2
    have hlog : Int.log 2 |(n : ℚ) * (2 : ℚ) ^ q| < q + 53 :=
      (Int.lt_zpow_iff_log_lt (by norm_num) (abs_pos.mpr hx)).mp habs
    have hE : float64Exp ((n : ℚ) * (2 : ℚ) ^ q) ≤ q := by
      unfold float64Exp
      exact max_le (by omega) hq
    obtain ⟨k, hk⟩ := Int.le.dest hE
    have hpos : (0 : ℚ) < (2 : ℚ) ^ float64Exp ((n : ℚ) * (2 : ℚ) ^ q) :=
      zpow_pos (by norm_num) _
    have hquot : (n : ℚ) * (2 : ℚ) ^ q / (2 : ℚ) ^ float64Exp ((n : ℚ) * (2 : ℚ) ^ q)
        = ((n * 2 ^ k : Int) : ℚ) := by
      have hq2 : q = float64Exp ((n : ℚ) * (2 : ℚ) ^ q) + (k : Int) := hk.symm
      rw [div_eq_iff hpos.ne']
      conv_lhs => rw [hq2]
      rw [zpow_add₀ (by norm_num : (2 : ℚ) ≠ 0)]
      push_cast
      rw [zpow_natCast]
      ring
    unfold roundFloat64
    rw [if_neg hx, hquot, roundHalfEven_intCast, ← hquot]
    exact div_mul_cancel₀ _ hpos.ne'

theorem roundFloat64_intCast (n : Int) (hn : |n| < 2 ^ 53) : roundFloat64 (n : ℚ) = n := by
  have h := roundFloat64_dyadic n 0 hn (by decide)
  simpa using h

/-- The age over a whole number `h` of hours, when `h / 24` is a binary64
value: `Hours()` is `h` and the division by 24 is exact. -/
theorem daysSince_whole_hours (now t h n q : Int) (hd : timeSub now t = h * Hour)
    (hh : |h| < 2 ^ 53) (hn : |n| < 2 ^ 53) (hq : -1074 ≤ q)
    (hx : (h : ℚ) / 24 = (n : ℚ) * (2 : ℚ) ^ q) :
    daysSince now t = (n : ℚ) * (2 : ℚ) ^ q := by
  have hH : Hour ≠ 0 := by decide
  have h1 : (h * Hour).tdiv Hour = h := Int.mul_tdiv_cancel _ hH
  have h2 : (h * Hour).tmod Hour = 0 := Int.mul_tmod_left _ _
  have h3 : roundFloat64 (((0 : Int) : ℚ) / (60 * 60 * 1000000000)) = 0 := by
    simp [roundFloat64]
  unfold daysSince durationHours float64OfInt
  rw [hd, h1, h2, roundFloat64_intCast h hh, roundFloat64_intCast 0 (by decide), h3, add_zero,
    roundFloat64_intCast h hh, hx]
  exact roundFloat64_dyadic n q hn hq

theorem roundHalfEven_of_near (y : ℚ) (m : Int) (h : |y - (m : ℚ)| < 1 / 2) :
    roundHalfEven y = m := by
  rw [abs_lt] at h
  obtain ⟨h1, h2⟩ := h
  rcases le_or_lt (m : ℚ) y with hle | hlt
  · have hf : ⌊y⌋ = m := by
      rw [Int.floor_eq_iff]
      exact ⟨hle, by linarith⟩
    unfold roundHalfEven
    rw [hf, if_pos (by linarith)]
  · have hf : ⌊y⌋ = m - 1 := by
      rw [Int.floor_eq_iff]
      push_cast
      exact ⟨by linarith, by linarith⟩
    unfold roundHalfEven
    rw [hf]
    push_cast
    rw [if_neg (by linarith), if_pos (by linarith)]
    ring

/-- Rounding a value of binary exponent `e` in the normal range: the result
is `m * 2 ^ (e - 52)` for the integer `m` strictly nearest to `x / 2 ^ (e - 52)`. -/
theorem roundFloat64_of_near (x : ℚ) (e m : Int) (hlo : (2 : ℚ) ^ e ≤ |x|)
    (hhi : |x| < (2 : ℚ) ^ (e + 1)) (he : -1022 ≤ e)
    (hm : |x / (2 : ℚ) ^ (e - 52) - (m : ℚ)| < 1 / 2) :
    roundFloat64 x = (m : ℚ) * (2 : ℚ) ^ (e - 52) := by
  have hpos : 0 < |x| := lt_of_lt_of_le (zpow_pos (by norm_num) e) hlo
  have hx : x ≠ 0 := abs_pos.mp hpos
  have h2c : ((2 : ℕ) : ℚ) = 2 := by norm_num
  have hlog : Int.log 2 |x| = e := by
    apply le_antisymm
    · have h := (Int.lt_zpow_iff_log_lt (by norm_num : 1 < 2) hpos).mp (by rw [h2c]; exact hhi)
      omega
    · exact (Int.zpow_le_iff_le_log (by norm_num : 1 < 2) hpos).mp (by rw [h2c]; exact hlo)
  have hE : float64Exp x = e - 52 := by
    unfold float64Exp
    rw [hlog]
    exact max_eq_left (by omega)
  unfold roundFloat64
  rw [if_neg hx, hE, roundHalfEven_of_near _ m hm]

/-- A duration one nanosecond short of 200 days: `Hours()` rounds
`4799 + 0.99999999999972` up to 4800, so the age is 200 days and not 199, and
with `--day 199` the tag is pushed. -/
theorem daysSince_rounds_up : daysSince 17279999999999999 0 = 200 ∧
    goInt (daysSince 17279999999999999 0) = 200 ∧
    isCandidate 199 (17279999999999999, mkTag "T" 0) = true := by
  have hd : timeSub 17279999999999999 0 = 17279999999999999 := by decide
  have h1 : (17279999999999999 : Int).tdiv Hour = 4799 := by decide
  have h2 : (17279999999999999 : Int).tmod Hour = 3599999999999 := by decide
  have hf1 : roundFloat64 (((3599999999999 : Int) : ℚ) / (60 * 60 * 1000000000))
      = ((9007199254738490 : Int) : ℚ) * (2 : ℚ) ^ ((-1 : Int) - 52) := by
    apply roundFloat64_of_near _ (-1) 9007199254738490
    · norm_num [abs_of_pos]
    · norm_num [abs_of_pos]
    · decide
    · norm_num [abs_lt]
  have hf2 : roundFloat64 (((4799 : Int) : ℚ)
      + ((9007199254738490 : Int) : ℚ) * (2 : ℚ) ^ ((-1 : Int) - 52))
      = ((5277655813324800 : Int) : ℚ) * (2 : ℚ) ^ ((12 : Int) - 52) := by
    apply roundFloat64_of_near _ 12 5277655813324800
    · norm_num [abs_of_pos]
    · norm_num [abs_of_pos]
    · decide
    · norm_num [abs_lt]
  have hval : daysSince 17279999999999999 0 = 200 := by
    unfold daysSince durationHours float64OfInt
    rw [hd, h1, h2, roundFloat64_intCast 4799 (by decide),
      roundFloat64_intCast 3599999999999 (by decide), hf1, hf2]
    have h3 : ((5277655813324800 : Int) : ℚ) * (2 : ℚ) ^ ((12 : Int) - 52) / 24
        = ((200 : Int) : ℚ) := by norm_num
    rw [h3, roundFloat64_intCast 200 (by decide)]
    norm_num
  have hg : goInt (daysSince 17279999999999999 0) = 200 := by
    rw [hval]
    exact goInt_intCast 200
  refine ⟨hval, hg, ?_⟩
  simp [isCandidate, mkTag, rfc3339Transform, hg]

/-- The ages of the fixtures: ten days, minus half a day, minus two days,
thirty and a half days, and the forty, twenty and fifty days of the tag
scenario. -/
theorem fixture_ages :
    daysSince tenDays 0 = 10 ∧
    daysSince 0 43200000000000 = -1 / 2 ∧
    daysSince 0 172800000000000 = -2 ∧
    daysSince hundredDays 6004800000000000 = 61 / 2 ∧
    daysSince hundredDays 5184000000000000 = 40 ∧
    daysSince hundredDays 6912000000000000 = 20 ∧
    daysSince hundredDays 4320000000000000 = 50 := by
  refine ⟨?_, ?_, ?_, ?_, ?_, ?_, ?_⟩
  · rw [daysSince_whole_hours tenDays 0 240 10 0 (by decide) (by decide) (by decide)
      (by decide) (by norm_num)]
    norm_num
  · rw [daysSince_whole_hours 0 43200000000000 (-12) (-1) (-1) (by decide) (by decide)
      (by decide) (by decide) (by norm_num)]
    norm_num
  · rw [daysSince_whole_hours 0 172800000000000 (-48) (-2) 0 (by decide) (by decide)
      (by decide) (by decide) (by norm_num)]
    norm_num
  · rw [daysSince_whole_hours hundredDays 6004800000000000 732 61 (-1) (by decide) (by decide)
      (by decide) (by decide) (by norm_num)]
    norm_num
  · rw [daysSince_whole_hours hundredDays 5184000000000000 960 40 0 (by decide) (by decide)
      (by decide) (by decide) (by norm_num)]
    norm_num
  · rw [daysSince_whole_hours hundredDays 6912000000000000 480 20 0 (by decide) (by decide)
      (by decide) (by decide) (by norm_num)]
    norm_num
  · rw [daysSince_whole_hours hundredDays 4320000000000000 1200 50 0 (by decide) (by decide)
      (by decide) (by decide) (by norm_num)]
    norm_num

/-- The truncations of the fixture ages. -/
theorem fixture_truncations :
    goInt (10 : ℚ) = 10 ∧ goInt (-1 / 2 : ℚ) = 0 ∧ goInt (61 / 2 : ℚ) = 30 ∧
    goInt (40 : ℚ) = 40 ∧ goInt (20 : ℚ) = 20 ∧ goInt (50 : ℚ) = 50 := by
  have h1 : goInt (-1 / 2 : ℚ) = 0 := by
    have h := goInt_intCast_div (-1) 2 (by decide)
    norm_num at h
    rw [show (-1 / 2 : ℚ) = -(1 / 2) by norm_num]
    exact h
  have h2 : goInt (61 / 2 : ℚ) = 30 := by
    have h := goInt_intCast_div 61 2 (by decide)
    have hv : Int.tdiv 61 ((2 : Nat) : Int) = 30 := by decide
    rw [hv] at h
    norm_num at h
    exact h
  exact ⟨goInt_intCast 10, h1, h2, goInt_intCast 40, goInt_intCast 20, goInt_intCast 50⟩

/-! ## Scoring -/

theorem scanFactors_eq_specWeight {F : Type} (fs : List (factor F)) (v : Int) (w : F) :
    scanFactors fs v w = specWeight fs v w := by
  induction fs with
  | nil => simp [scanFactors, specWeight]
  | cons f rest ih =>
    unfold specWeight at ih ⊢
    by_cases h : inRange f.Range v = true
    · simp [scanFactors, h]
    · simp [scanFactors, h, ih]

theorem scanFactors_unmatched {F : Type} (fs : List (factor F)) (v : Int) (w : F)
    (h : ∀ f ∈ fs, ¬ (f.Range.Low ≤ v ∧ v < f.Range.High)) : scanFactors fs v w = w := by
  induction fs with
  | nil => simp [scanFactors]
  | cons f rest ih =>
    have hf : inRange f.Range v = false := by
      have := h f (List.mem_cons_self _ _)
      simp only [inRange, Bool.and_eq_false_iff, decide_eq_false_iff_not]
      tauto
    simp only [scanFactors, hf]
    exact ih (fun g hg => h g (List.mem_cons_of_mem _ hg))

/-- What `grade` computes, for every interpretation of the `float32`
operations: each weight is the one `specWeight` finds with default 0, after
which a weight that compares equal to 0 is replaced by 0 (update recency) or
by 1 (pull count, tag count). -/
theorem gradeTrace_eq {F : Type} [Float32Ops F] (now t : Int) (r : repoTop)
    (rp : retentionPolicy F) (ht : r.UpdateTime = TimeString.valid t) :
    gradeTrace now r rp = some (gradeAt (daysSince now t) r rp) := by
  simp [gradeTrace, ht, rfc3339Transform]

theorem goInt_neg_of_le (x : ℚ) (hx : x ≤ -1) : goInt x < 0 := by
  have h1 : goInt x = -goInt (-x) := by rw [goInt_neg, neg_neg]
  have h2 : (0 : ℚ) ≤ -x := by linarith
  have h3 : (1 : Int) ≤ ⌊-x⌋ := by
    rw [Int.le_floor]
    push_cast
    linarith
  rw [h1, goInt_of_nonneg _ h2]
  omega

theorem specWeight_default_irrelevant {F : Type} [Float32Ops F] (fs : List (factor F))
    (v : Int) (d : F) (hw : ∀ f ∈ fs, Float32Ops.eqZero f.Weight = false) :
    (if Float32Ops.eqZero (specWeight fs v 0) then d else specWeight fs v 0)
      = specWeight fs v d := by
  unfold specWeight
  cases hfind : fs.find? (fun f => inRange f.Range v) with
  | none => simp [Float32Ops.eqZero_zero]
  | some f =>
    have hf : f ∈ fs := List.mem_of_find?_eq_some hfind
    simp [hw f hf]

/-- Where the closed form of section 4.1 does hold: when no configured weight
compares equal to 0, `grade` returns `specScore` at the truncated age. -/
theorem grade_eq_specScore_of_nonzero_weights {F : Type} [Float32Ops F] (now t : Int)
    (r : repoTop) (rp : retentionPolicy F) (ht : r.UpdateTime = TimeString.valid t)
    (hu : ∀ f ∈ rp.UpdateTime.Factors, Float32Ops.eqZero f.Weight = false)
    (hp : ∀ f ∈ rp.PullCount.Factors, Float32Ops.eqZero f.Weight = false)
    (hg : ∀ f ∈ rp.TagsCount.Factors, Float32Ops.eqZero f.Weight = false) :
    grade now r rp = some (specScore (goInt (daysSince now t)) r rp) := by
  simp only [grade, gradeTrace_eq now t r rp ht, gradeAt, Option.map_some',
    scanFactors_eq_specWeight, specScore]
  rw [specWeight_default_irrelevant _ _ 0 hu, specWeight_default_irrelevant _ _ 1 hp,
    specWeight_default_irrelevant _ _ 1 hg]

/-- C1 (the code at the failing input): with a pull-count bucket `[0, 10)` of
configured weight 0 and a repository with 5 pulls, 3 tags and an age of 10
days, `grade` reports `pf = 1` and returns 10*1 + 5*1 + 2*1 = 17, while the
closed form with the weight of the matching bucket is 10*1 + 5*0 + 2*1 = 12. -/
theorem grade_zero_weight_bucket :
    grade tenDays scenarioRepo zeroWeightPolicy = some 17 ∧
    (gradeTrace tenDays scenarioRepo zeroWeightPolicy).map gradeFactors.pf = some 1 ∧
    specWeight zeroWeightPolicy.PullCount.Factors scenarioRepo.PullCount 1 = 0 ∧
    specScore (goInt (daysSince tenDays 0)) scenarioRepo zeroWeightPolicy = 12 := by
  have hg : goInt (daysSince tenDays 0) = 10 := by
    rw [fixture_ages.1]
    exact fixture_truncations.1
  refine ⟨?_, ?_, ?_, ?_⟩
  · simp [grade, gradeTrace, gradeAt, rfc3339Transform, scenarioRepo, mkRepo, hg,
      zeroWeightPolicy, mkFactor, scanFactors, inRange, Float32Ops.eqZero]
    norm_num
  · simp [gradeTrace, gradeAt, rfc3339Transform, scenarioRepo, mkRepo, zeroWeightPolicy,
      mkFactor, scanFactors, inRange, Float32Ops.eqZero]
  · simp [specWeight, scenarioRepo, mkRepo, zeroWeightPolicy, mkFactor, inRange]
  · simp [specScore, specWeight, scenarioRepo, mkRepo, hg, zeroWeightPolicy, mkFactor,
      inRange]
    norm_num

/-- C9: for every policy, every repository with a well-formed update time and
every current time, `grade` returns `base_u*uf + base_p*pf + base_t*tf` where
`uf = 0` if no update-recency bucket contains the truncated age, `pf = 1` if
no pull-count bucket contains the pull count and `tf = 1` if no tags-count
bucket contains the tag count (an empty bucket list included). -/
theorem grade_default_weights {F : Type} [Float32Ops F] (now t : Int) (r : repoTop)
    (rp : retentionPolicy F) (ht : r.UpdateTime = TimeString.valid t) :
    ∃ g : gradeFactors F, gradeTrace now r rp = some g ∧
      grade now r rp
        = some (rp.UpdateTime.Base * g.uf + rp.PullCount.Base * g.pf + rp.TagsCount.Base * g.tf) ∧
      ((∀ f ∈ rp.UpdateTime.Factors,
          ¬ (f.Range.Low ≤ goInt (daysSince now t) ∧ goInt (daysSince now t) < f.Range.High)) →
        g.uf = 0) ∧
      ((∀ f ∈ rp.PullCount.Factors, ¬ (f.Range.Low ≤ r.PullCount ∧ r.PullCount < f.Range.High)) →
        g.pf = 1) ∧
      ((∀ f ∈ rp.TagsCount.Factors, ¬ (f.Range.Low ≤ r.TagsCount ∧ r.TagsCount < f.Range.High)) →
        g.tf = 1) ∧
      (rp.PullCount.Factors = [] → g.pf = 1) ∧
      (rp.TagsCount.Factors = [] → g.tf = 1) := by
  refine ⟨gradeAt (daysSince now t) r rp, gradeTrace_eq now t r rp ht, ?_, ?_, ?_, ?_, ?_, ?_⟩
  · simp [grade, gradeTrace_eq now t r rp ht, gradeAt]
  · intro h
    simp [gradeAt, scanFactors_unmatched _ _ _ h]
  · intro h
    simp [gradeAt, scanFactors_unmatched _ _ _ h, Float32Ops.eqZero_zero]
  · intro h
    simp [gradeAt, scanFactors_unmatched _ _ _ h, Float32Ops.eqZero_zero]
  · intro h
    simp [gradeAt, h, scanFactors, Float32Ops.eqZero_zero]
  · intro h
    simp [gradeAt, h, scanFactors, Float32Ops.eqZero_zero]

/-- C9 (scenario): update base 10 with the bucket `[0, 30)` of weight 1, a
repository updated 10 days ago, pull base 5 and tags base 2 with no matching
pull or tags bucket: the score is 10*1 + 5*1 + 2*1 = 17. -/
theorem grade_default_weights_witness :
    scenarioRepo.UpdateTime = TimeString.valid 0 ∧
    (∃ g : gradeFactors ℚ, gradeTrace tenDays scenarioRepo scenarioPolicy = some g ∧
      g.pf = 1 ∧ g.tf = 1) ∧
    grade tenDays scenarioRepo scenarioPolicy = some 17 := by
  refine ⟨rfl, ?_, ?_⟩
  · obtain ⟨g, hg, _, _, hp, _, _, htE⟩ :=
      grade_default_weights tenDays 0 scenarioRepo scenarioPolicy rfl
    refine ⟨g, hg, hp ?_, htE rfl⟩
    intro f hf
    simp [scenarioPolicy, mkFactor] at hf
    subst hf
    simp [scenarioRepo, mkRepo]
  · have hg : goInt (daysSince tenDays 0) = 10 := by
      rw [fixture_ages.1]
      exact fixture_truncations.1
    simp [grade, gradeTrace, gradeAt, rfc3339Transform, scenarioRepo, mkRepo, hg,
      scenarioPolicy, mkFactor, scanFactors, inRange, Float32Ops.eqZero]
    norm_num

/-- C10 (counterexample): a repository updated twelve hours in the future has
the age -1/2 day, which `int` truncates to 0; under a policy whose only
update-recency bucket is `[0, 30)` with weight 1 the bucket matches and `grade`
reports `uf = 1`, not the default 0. -/
theorem grade_future_half_day :
    daysSince 0 43200000000000 = -1 / 2 ∧
    futureRepo.UpdateTime = TimeString.valid 43200000000000 ∧
    (∀ f ∈ scenarioPolicy.UpdateTime.Factors, 0 ≤ f.Range.Low) ∧
    (gradeTrace 0 futureRepo scenarioPolicy).map gradeFactors.uf = some 1 ∧
    grade 0 futureRepo scenarioPolicy = some 17 := by
  have hd : daysSince 0 43200000000000 = -1 / 2 := fixture_ages.2.1
  have hg : goInt (daysSince 0 43200000000000) = 0 := by
    rw [hd]
    exact fixture_truncations.2.1
  refine ⟨hd, rfl, ?_, ?_, ?_⟩
  · intro f hf
    simp [scenarioPolicy, mkFactor] at hf
    subst hf
    simp
  · simp [gradeTrace, gradeAt, rfc3339Transform, futureRepo, mkRepo, hg, scenarioPolicy,
      mkFactor, scanFactors, inRange, Float32Ops.eqZero]
  · simp [grade, gradeTrace, gradeAt, rfc3339Transform, futureRepo, mkRepo, hg, scenarioPolicy,
      mkFactor, scanFactors, inRange, Float32Ops.eqZero]
    norm_num

/-- C10 (amended): for every repository whose update time lies at least one
whole day in the future (age at most -1 day, so that the truncated age is
negative) and every policy whose update-recency buckets all have `low >= 0`,
`grade` matches no update-recency bucket, takes the default weight 0 for the
update term and returns `base_u*0 + base_p*pf + base_t*tf`. -/
theorem grade_future_whole_day {F : Type} [Float32Ops F] (now t : Int) (r : repoTop)
    (rp : retentionPolicy F) (ht : r.UpdateTime = TimeString.valid t)
    (hage : daysSince now t ≤ -1)
    (hlow : ∀ f ∈ rp.UpdateTime.Factors, 0 ≤ f.Range.Low) :
    ∃ g : gradeFactors F, gradeTrace now r rp = some g ∧
      (∀ f ∈ rp.UpdateTime.Factors, inRange f.Range (goInt (daysSince now t)) = false) ∧
      g.uf = 0 ∧
      grade now r rp
        = some (rp.UpdateTime.Base * 0 + rp.PullCount.Base * g.pf + rp.TagsCount.Base * g.tf) := by
  have hneg := goInt_neg_of_le _ hage
  have hun : ∀ f ∈ rp.UpdateTime.Factors,
      ¬ (f.Range.Low ≤ goInt (daysSince now t) ∧ goInt (daysSince now t) < f.Range.High) := by
    intro f hf hc
    have := hlow f hf
    omega
  refine ⟨gradeAt (daysSince now t) r rp, gradeTrace_eq now t r rp ht, ?_, ?_, ?_⟩
  · intro f hf
    have := hun f hf
    simp only [inRange, Bool.and_eq_false_iff, decide_eq_false_iff_not]
    tauto
  · simp [gradeAt, scanFactors_unmatched _ _ _ hun]
  · simp [grade, gradeTrace_eq now t r rp ht, gradeAt, scanFactors_unmatched _ _ _ hun]

/-- C10 (witness): a repository updated two days in the future. -/
theorem grade_future_whole_day_witness :
    daysSince 0 172800000000000 ≤ -1 ∧
    ∃ g : gradeFactors ℚ,
      gradeTrace 0 (mkRepo 9 "library/x" 5 3 172800000000000) scenarioPolicy = some g ∧
      (∀ f ∈ scenarioPolicy.UpdateTime.Factors,
        inRange f.Range (goInt (daysSince 0 172800000000000)) = false) ∧
      g.uf = 0 ∧
      grade 0 (mkRepo 9 "library/x" 5 3 172800000000000) scenarioPolicy
        = some (scenarioPolicy.UpdateTime.Base * 0 + scenarioPolicy.PullCount.Base * g.pf
            + scenarioPolicy.TagsCount.Base * g.tf) := by
  have hd : daysSince 0 172800000000000 ≤ -1 := by
    rw [fixture_ages.2.2.1]
    norm_num
  refine ⟨hd, grade_future_whole_day 0 172800000000000 _ scenarioPolicy rfl hd ?_⟩
  intro f hf
  simp [scenarioPolicy, mkFactor] at hf
  subst hf
  simp

/-! ## Heaps -/

theorem extractMin_length {α : Type} (le : α → α → Bool) (x : α) (xs : List α) :
    (extractMin le x xs).2.length = xs.length := by
  induction xs generalizing x with
  | nil => simp [extractMin]
  | cons y ys ih =>
    simp only [extractMin]
    split <;> simp [ih]

theorem extractMin_perm {α : Type} (le : α → α → Bool) (x : α) (xs : List α) :
    ((extractMin le x xs).1 :: (extractMin le x xs).2).Perm (x :: xs) := by
  induction xs generalizing x with
  | nil => simp [extractMin]
  | cons y ys ih =>
    simp only [extractMin]
    split
    · exact ((List.Perm.swap _ _ _).trans ((ih x).cons y)).trans (List.Perm.swap _ _ _)
    · exact ((List.Perm.swap _ _ _).trans ((ih y).cons x))

theorem extractMin_le {α : Type} (le : α → α → Bool)
    (total : ∀ a b, le a b = true ∨ le b a = true)
    (trans : ∀ a b c, le a b = true → le b c = true → le a c = true)
    (x : α) (xs : List α) :
    ∀ z ∈ x :: xs, le (extractMin le x xs).1 z = true := by
  induction xs generalizing x with
  | nil =>
    intro z hz
    simp only [List.mem_singleton] at hz
    subst hz
    simpa [extractMin] using (total z z)
  | cons y ys ih =>
    intro z hz
    simp only [extractMin]
    split
    · next hxy =>
      rcases List.mem_cons.mp hz with h | h
      · exact ih x z (by simp [h])
      · rcases List.mem_cons.mp h with h | h
        · subst h
          exact trans _ _ _ (ih x x (by simp)) hxy
        · exact ih x z (by simp [h])
    · next hxy =>
      have hyx : le y x = true := by
        rcases total x y with h | h
        · exact absurd h hxy
        · exact h
      rcases List.mem_cons.mp hz with h | h
      · subst h
        exact trans _ _ _ (ih y y (by simp)) hyx
      · rcases List.mem_cons.mp h with h | h
        · exact ih y z (by simp [h])
        · exact ih y z (by simp [h])

theorem heapDrain_nil {α : Type} (le : α → α → Bool) : heapDrain le ([] : List α) = [] := by
  rw [heapDrain]

theorem heapDrain_cons {α : Type} (le : α → α → Bool) (x : α) (xs : List α) :
    heapDrain le (x :: xs) = (extractMin le x xs).1 :: heapDrain le (extractMin le x xs).2 := by
  rw [heapDrain]

theorem heapDrain_perm_aux {α : Type} (le : α → α → Bool) :
    ∀ (n : Nat) (h : List α), h.length = n → (heapDrain le h).Perm h := by
  intro n
  induction n with
  | zero =>
    intro h hn
    have : h = [] := List.length_eq_zero.mp hn
    subst this
    simp [heapDrain_nil]
  | succ n ih =>
    intro h hn
    match h, hn with
    | x :: xs, hn =>
      rw [heapDrain_cons]
      have hl : (extractMin le x xs).2.length = n := by
        rw [extractMin_length]; simpa using hn
      exact ((ih _ hl).cons _).trans (extractMin_perm le x xs)

/-- Draining a heap yields each of its elements exactly once. -/
theorem heapDrain_perm {α : Type} (le : α → α → Bool) (h : List α) :
    (heapDrain le h).Perm h :=
  heapDrain_perm_aux le h.length h rfl

theorem heapDrain_sorted_aux {α : Type} (le : α → α → Bool)
    (total : ∀ a b, le a b = true ∨ le b a = true)
    (trans : ∀ a b c, le a b = true → le b c = true → le a c = true) :
    ∀ (n : Nat) (h : List α), h.length = n →
      (heapDrain le h).Pairwise (fun a b => le a b = true) := by
  intro n
  induction n with
  | zero =>
    intro h hn
    have : h = [] := List.length_eq_zero.mp hn
    subst this
    simp [heapDrain_nil]
  | succ n ih =>
    intro h hn
    match h, hn with
    | x :: xs, hn =>
      rw [heapDrain_cons]
      have hl : (extractMin le x xs).2.length = n := by
        rw [extractMin_length]; simpa using hn
      refine List.Pairwise.cons ?_ (ih _ hl)
      intro z hz
      have hz2 : z ∈ (extractMin le x xs).2 := (heapDrain_perm le _).subset hz
      have hz3 : z ∈ x :: xs :=
        (extractMin_perm le x xs).subset (List.mem_cons_of_mem _ hz2)
      exact extractMin_le le total trans x xs z hz3

/-- Draining a heap under a total, transitive order yields its elements in
ascending order. -/
theorem heapDrain_sorted {α : Type} (le : α → α → Bool)
    (total : ∀ a b, le a b = true ∨ le b a = true)
    (trans : ∀ a b c, le a b = true → le b c = true → le a c = true) (h : List α) :
    (heapDrain le h).Pairwise (fun a b => le a b = true) :=
  heapDrain_sorted_aux le total trans h.length h rfl

theorem repoLe_iff {F : Type} [LinearOrder F] (a b : repoItem F) :
    repoLe a b = true ↔ a.score < b.score ∨ (a.score = b.score ∧ a.data.ID ≤ b.data.ID) := by
  simp [repoLe]

theorem repoLe_total {F : Type} [LinearOrder F] (a b : repoItem F) :
    repoLe a b = true ∨ repoLe b a = true := by
  rw [repoLe_iff, repoLe_iff]
  rcases lt_trichotomy a.score b.score with h | h | h
  · exact Or.inl (Or.inl h)
  · rcases le_total a.data.ID b.data.ID with h2 | h2
    · exact Or.inl (Or.inr ⟨h, h2⟩)
    · exact Or.inr (Or.inr ⟨h.symm, h2⟩)
  · exact Or.inr (Or.inl h)

theorem repoLe_trans {F : Type} [LinearOrder F] (a b c : repoItem F)
    (hab : repoLe a b = true) (hbc : repoLe b c = true) : repoLe a c = true := by
  rw [repoLe_iff] at *
  rcases hab with h1 | ⟨h1, h1id⟩
  · rcases hbc with h2 | ⟨h2, _⟩
    · exact Or.inl (lt_trans h1 h2)
    · exact Or.inl (h2 ▸ h1)
  · rcases hbc with h2 | ⟨h2, h2id⟩
    · exact Or.inl (h1 ▸ h2)
    · exact Or.inr ⟨h1.trans h2, le_trans h1id h2id⟩

theorem tagLe_iff (a b : tagItem) :
    tagLe a b = true ↔
      a.timestamp < b.timestamp ∨ (a.timestamp = b.timestamp ∧ a.tagName ≤ b.tagName) := by
  simp [tagLe]

theorem repoPushAll_spec {F : Type} [Float32Ops F] (rp : retentionPolicy F) :
    ∀ (repos : List (Int × repoTop)) (minh mhBk out1 out2 : minheap F),
      repoPushAll rp repos minh mhBk = some (out1, out2) →
      ∃ items : List (repoItem F), out1 = items ++ minh ∧ out2 = items ++ mhBk ∧
        items.length = repos.length ∧
        ∀ it ∈ items, ∃ p ∈ repos, it.data = p.2 ∧ grade p.1 p.2 rp = some it.score := by
  intro repos
  induction repos with
  | nil =>
    intro minh mhBk out1 out2 h
    simp only [repoPushAll, Option.some.injEq, Prod.mk.injEq] at h
    exact ⟨[], by simp [h.1.symm, h.2.symm]⟩
  | cons p rest ih =>
    intro minh mhBk out1 out2 h
    obtain ⟨now, r⟩ := p
    simp only [repoPushAll] at h
    cases hg : grade now r rp with
    | none => simp [hg] at h
    | some sc =>
      simp only [hg] at h
      obtain ⟨items, h1, h2, h3, h4⟩ := ih _ _ _ _ h
      refine ⟨items ++ [{ data := r, score := sc }], ?_, ?_, ?_, ?_⟩
      · simp [h1, heapPush]
      · simp [h2, heapPush]
      · simp [h3]
      · intro it hit
        rcases List.mem_append.mp hit with hm | hm
        · obtain ⟨q, hq, hq2⟩ := h4 it hm
          exact ⟨q, List.mem_cons_of_mem _ hq, hq2⟩
        · simp only [List.mem_singleton] at hm
          subst hm
          exact ⟨(now, r), List.mem_cons_self _ _, rfl, hg⟩

/-- C8: for every list of scored candidates pushed onto a ranking heap,
popping the heap until it is empty yields every pushed candidate exactly once,
in non-decreasing score order, candidates of equal score in ascending id
order; and the listing that `repoAnalyse` prints from `mhBk` and the pop order
of the consumption heap `minh` it leaves are both this ranking of the graded
repositories. -/
theorem ranking_heap_drain_sorted {F : Type} [Float32Ops F] [LinearOrder F] :
    (∀ items : List (repoItem F),
      (heapDrain repoLe (items.foldl (fun h it => heapPush it h) [])).Perm items ∧
      (heapDrain repoLe (items.foldl (fun h it => heapPush it h) [])).Pairwise
        (fun a b => a.score ≤ b.score ∧ (a.score = b.score → a.data.ID ≤ b.data.ID))) ∧
    (∀ (rp : retentionPolicy F) (repos : List (Int × repoTop)) (res : analyseResult F),
      repoAnalyse rp repos = some res →
        res.listing.Perm res.minh ∧ res.minh.length = repos.length ∧
        (∀ it ∈ res.minh, ∃ p ∈ repos, it.data = p.2 ∧ grade p.1 p.2 rp = some it.score) ∧
        heapDrain repoLe res.minh = res.listing ∧
        res.listing.Pairwise
          (fun a b => a.score ≤ b.score ∧ (a.score = b.score → a.data.ID ≤ b.data.ID))) := by
  have hmono : ∀ l : List (repoItem F), l.Pairwise (fun a b => repoLe a b = true) →
      l.Pairwise (fun a b => a.score ≤ b.score ∧ (a.score = b.score → a.data.ID ≤ b.data.ID)) := by
    intro l hl
    refine hl.imp ?_
    intro a b hab
    rw [repoLe_iff] at hab
    rcases hab with h | ⟨h, h2⟩
    · exact ⟨le_of_lt h, fun he => absurd he (ne_of_lt h)⟩
    · exact ⟨le_of_eq h, fun _ => h2⟩
  have hfold : ∀ (items acc : List (repoItem F)),
      (items.foldl (fun h it => heapPush it h) acc).Perm (items ++ acc) := by
    intro items
    induction items with
    | nil => intro acc; simp
    | cons x xs ih =>
      intro acc
      simp only [List.foldl_cons, heapPush]
      refine (ih (x :: acc)).trans ?_
      simp only [List.cons_append]
      exact List.perm_middle
  constructor
  · intro items
    refine ⟨(heapDrain_perm repoLe _).trans (by simpa using hfold items []), ?_⟩
    exact hmono _ (heapDrain_sorted repoLe repoLe_total repoLe_trans _)
  · intro rp repos res h
    unfold repoAnalyse at h
    cases hp : repoPushAll rp repos [] [] with
    | none => simp [hp] at h
    | some pr =>
      obtain ⟨m1, m2⟩ := pr
      simp only [hp, Option.some.injEq] at h
      obtain ⟨items, h1, h2, h3, h4⟩ := repoPushAll_spec rp repos [] [] m1 m2 hp
      subst h
      simp only [List.append_nil] at h1 h2
      subst h1 h2
      refine ⟨heapDrain_perm repoLe _, h3, h4, rfl, ?_⟩
      exact hmono _ (heapDrain_sorted repoLe repoLe_total repoLe_trans _)

/-! ## Interactive repository eviction -/

theorem foldl_promptStep_validated (n : Int) (ls : List String) :
    ls.foldl promptStep (promptState.validated n) = promptState.validated n := by
  induction ls with
  | nil => rfl
  | cons l rest ih => simpa [promptStep] using ih

theorem promptLoop_eq_promptRun_aux :
    ∀ (k : Nat) (lines : List String), lines.length ≤ k →
      promptLoop lines =
        (match promptRun lines with
         | promptState.validated n => n
         | _ => 0) := by
  intro k
  induction k with
  | zero =>
    intro lines hk
    have : lines = [] := List.length_eq_zero.mp (Nat.le_zero.mp hk)
    subst this
    simp [promptLoop, promptRun]
  | succ k ih =>
    intro lines hk
    cases lines with
    | nil => simp [promptLoop, promptRun]
    | cons l rest =>
      simp only [List.length_cons] at hk
      cases ha : atoi l with
      | none =>
        have h1 : promptRun (l :: rest) = promptRun rest := by
          simp [promptRun, promptStep, ha]
        rw [h1]
        simp only [promptLoop, ha]
        exact ih rest (by omega)
      | some n =>
        cases rest with
        | nil => simp [promptLoop, promptRun, promptStep, ha]
        | cons c rest2 =>
          simp only [List.length_cons] at hk
          by_cases hy : equalFoldY c = true
          · have h1 : promptRun (l :: c :: rest2) = promptState.validated n := by
              simp [promptRun, promptStep, ha, hy, foldl_promptStep_validated]
            rw [h1]
            simp [promptLoop, ha, hy]
          · have h1 : promptRun (l :: c :: rest2) = promptRun rest2 := by
              simp [promptRun, promptStep, ha, hy]
            rw [h1]
            simp only [promptLoop, ha, hy]
            exact ih rest2 (by omega)

/-- The prompt loop of `repoErase` refines the controller of section 4.3:
`num` is the validated number, and 0 when the input ends in another state. -/
theorem promptLoop_eq_promptRun (lines : List String) :
    promptLoop lines =
      (match promptRun lines with
       | promptState.validated n => n
       | _ => 0) :=
  promptLoop_eq_promptRun_aux lines.length lines (le_refl _)

theorem promptLoop_of_validated (lines : List String) (N : Int)
    (h : promptRun lines = promptState.validated N) : promptLoop lines = N := by
  rw [promptLoop_eq_promptRun, h]

theorem promptLoop_of_not_validated (lines : List String)
    (h : ∀ n, promptRun lines ≠ promptState.validated n) : promptLoop lines = 0 := by
  rw [promptLoop_eq_promptRun]
  cases hr : promptRun lines with
  | awaitingNumber => rfl
  | awaitingConfirmation n => rfl
  | validated n => exact absurd hr (h n)

/-- The deletion loop when every credential load succeeds: it ends normally,
having popped the first `n` candidates of the pop order (all of them when the
heap holds fewer) and requested the deletion of each by name. -/
theorem eraseLoop_spec {F : Type} [LinearOrder F] (cookieLoad : Nat → Except String String)
    (hc : ∀ k, ∃ c, cookieLoad k = Except.ok c) :
    ∀ (n : Nat) (num : Int) (calls : Nat) (minh : minheap F) (ds : List repoDelete),
      num = (n : Int) →
      (eraseLoop cookieLoad num calls minh ds).status = runStatus.returned none ∧
      (eraseLoop cookieLoad num calls minh ds).deletes.map repoDelete.repo
        = ds.map repoDelete.repo
            ++ ((heapDrain repoLe minh).take n).map (fun it => it.data.Name) ∧
      heapDrain repoLe (eraseLoop cookieLoad num calls minh ds).minh
        = (heapDrain repoLe minh).drop n ∧
      (eraseLoop cookieLoad num calls minh ds).minh.length = minh.length - n := by
  intro n
  induction n with
  | zero =>
    intro num calls minh ds hnum
    subst hnum
    rw [eraseLoop]
    simp
  | succ n ih =>
    intro num calls minh ds hnum
    have hpos : 0 < num := by omega
    have hpred : num - 1 = (n : Int) := by omega
    cases minh with
    | nil =>
      rw [eraseLoop]
      simp only [hpos, if_true, List.length_nil, lt_self_iff_false, if_false]
      have := ih (num - 1) calls [] ds hpred
      simpa [heapDrain_nil] using this
    | cons x xs =>
      obtain ⟨c, hck⟩ := hc calls
      rw [eraseLoop]
      simp only [hpos, if_true, List.length_cons, Nat.zero_lt_succ, heapPop, hck]
      have := ih (num - 1) (calls + 1) (extractMin repoLe x xs).2
        (ds ++ [{ repo := (extractMin repoLe x xs).1.data.Name, session := c }]) hpred
      obtain ⟨h1, h2, h3, h4⟩ := this
      refine ⟨h1, ?_, ?_, ?_⟩
      · rw [h2, heapDrain_cons]
        simp
      · rw [h3, heapDrain_cons]
        simp
      · rw [h4, extractMin_length]
        simp

theorem eraseLoop_not_outOfRange {F : Type} [LinearOrder F]
    (cookieLoad : Nat → Except String String) :
    ∀ (n : Nat) (num : Int) (calls : Nat) (minh : minheap F) (ds : List repoDelete),
      num.toNat = n →
      (eraseLoop cookieLoad num calls minh ds).status
        ≠ runStatus.returned (some eraseError.outOfRange) := by
  intro n
  induction n with
  | zero =>
    intro num calls minh ds hnum
    have hle : ¬ 0 < num := by omega
    rw [eraseLoop]
    simp [hle]
  | succ n ih =>
    intro num calls minh ds hnum
    have hpos : 0 < num := by omega
    have hpred : (num - 1).toNat = n := by omega
    cases minh with
    | nil =>
      rw [eraseLoop]
      simp only [hpos, if_true, List.length_nil, lt_self_iff_false, if_false]
      exact ih (num - 1) calls [] ds hpred
    | cons x xs =>
      rw [eraseLoop]
      simp only [hpos, if_true, List.length_cons, Nat.zero_lt_succ, heapPop]
      cases hck : cookieLoad calls with
      | error e => simp
      | ok c => exact ih (num - 1) (calls + 1) _ _ hpred

/-- C4: `repoErase` accepts a confirmed number `N` exactly when `1 <= N <= 50`.
For a confirmed `N <= 0` or `N > 50` it returns an error, issues no deletion
request and leaves the heap untouched; for a confirmed `N` in `[1, 50]` (the
scanner reporting no read error) it is the deletion loop started with `N`;
with no read error the out-of-range error is returned if and only if `N` is
out of range.  The bound is not examined while numbers are entered: a parsed
number of any size followed by a line other than `y` leaves the function
exactly where it would be without these two lines. -/
theorem repoErase_bounds {F : Type} [LinearOrder F] (lines : List String) (N : Int)
    (scanErr : Option String) (cookieLoad : Nat → Except String String) (minh : minheap F)
    (hN : promptRun lines = promptState.validated N) :
    ((N ≤ 0 ∨ 50 < N) →
      (∃ e, (repoErase lines scanErr cookieLoad minh).status = runStatus.returned (some e)) ∧
      (repoErase lines scanErr cookieLoad minh).deletes = [] ∧
      (repoErase lines scanErr cookieLoad minh).minh = minh) ∧
    ((1 ≤ N ∧ N ≤ 50) → scanErr = none →
      repoErase lines scanErr cookieLoad minh = eraseLoop cookieLoad N 0 minh []) ∧
    (scanErr = none →
      ((repoErase lines scanErr cookieLoad minh).status
          = runStatus.returned (some eraseError.outOfRange) ↔ (N ≤ 0 ∨ 50 < N))) ∧
    (∀ (l c : String) (rest : List String) (n : Int), atoi l = some n → equalFoldY c = false →
      repoErase (l :: c :: rest) scanErr cookieLoad minh
        = repoErase rest scanErr cookieLoad minh) := by
  have hnum : promptLoop lines = N := promptLoop_of_validated lines N hN
  refine ⟨?_, ?_, ?_, ?_⟩
  · intro hout
    cases scanErr with
    | some e => exact ⟨⟨_, rfl⟩, rfl, rfl⟩
    | none => simp [repoErase, hnum, hout]
  · intro hin hs
    subst hs
    have hnot : ¬ (N ≤ 0 ∨ 50 < N) := by omega
    simp only [repoErase, hnum, hnot, if_false]
  · intro hs
    subst hs
    by_cases hout : N ≤ 0 ∨ 50 < N
    · simp only [repoErase, hnum, hout, if_true]
    · simp only [repoErase, hnum, hout, if_false, iff_false]
      exact eraseLoop_not_outOfRange cookieLoad _ N 0 minh [] rfl
  · intro l c rest n ha hy
    simp [repoErase, promptLoop, ha, hy]

/-- C4 (witness): the lines `abc`, `100`, `n`, `5`, `Y` confirm the number 5;
the unconfirmed 100 raises no error. -/
theorem repoErase_bounds_witness :
    promptRun ["abc", "100", "n", "5", "Y"] = promptState.validated 5 ∧
    repoErase ["abc", "100", "n", "5", "Y"] none cookieOk sampleHeap
      = eraseLoop cookieOk 5 0 sampleHeap [] := by
  have h : promptRun ["abc", "100", "n", "5", "Y"] = promptState.validated 5 := by decide
  exact ⟨h, (repoErase_bounds _ 5 none cookieOk sampleHeap h).2.1 (by decide) rfl⟩

/-- C5: for every validated `N` in `[1, 50]` and every consumption heap, when
the scanner reports no read error and every credential load succeeds,
`repoErase` returns nil without popping an empty heap, issues one deletion
request per popped candidate, by name and in pop order, for the first
`min(N, S)` candidates of the pop order, and leaves the other
`S - min(N, S)` candidates in the heap, in their pop order. -/
theorem repoErase_pops {F : Type} [LinearOrder F] (lines : List String) (N : Int)
    (cookieLoad : Nat → Except String String) (minh : minheap F)
    (hN : promptRun lines = promptState.validated N) (hlo : 1 ≤ N) (hhi : N ≤ 50)
    (hc : ∀ k, ∃ c, cookieLoad k = Except.ok c) :
    (repoErase lines none cookieLoad minh).status = runStatus.returned none ∧
    (repoErase lines none cookieLoad minh).deletes.map repoDelete.repo
      = ((heapDrain repoLe minh).take N.toNat).map (fun it => it.data.Name) ∧
    (repoErase lines none cookieLoad minh).deletes.length = min N.toNat minh.length ∧
    heapDrain repoLe (repoErase lines none cookieLoad minh).minh
      = (heapDrain repoLe minh).drop N.toNat ∧
    (repoErase lines none cookieLoad minh).minh.length
      = minh.length - min N.toNat minh.length := by
  have hnum : promptLoop lines = N := promptLoop_of_validated lines N hN
  have hnot : ¬ (N ≤ 0 ∨ 50 < N) := by omega
  have hres : repoErase lines none cookieLoad minh = eraseLoop cookieLoad N 0 minh [] := by
    simp only [repoErase, hnum, hnot, if_false]
  have hcast : N = ((N.toNat : Nat) : Int) := by omega
  obtain ⟨h1, h2, h3, h4⟩ := eraseLoop_spec cookieLoad hc N.toNat N 0 minh [] hcast
  rw [hres]
  refine ⟨h1, by simpa using h2, ?_, h3, ?_⟩
  · have hl := congrArg List.length h2
    simp only [List.length_map, List.map_nil, List.nil_append, List.length_take] at hl
    rw [hl, (heapDrain_perm repoLe minh).length_eq]
  · rw [h4]
    omega

/-- C5 (witness): the lines `2`, `y` on a heap holding `b` (score 5, id 2),
`a` (score 2, id 1) and `c` (score 5, id 3) delete `a` then `b` and leave `c`. -/
theorem repoErase_pops_witness :
    promptRun ["2", "y"] = promptState.validated 2 ∧
    (repoErase ["2", "y"] none cookieOk sampleHeap).status = runStatus.returned none ∧
    (repoErase ["2", "y"] none cookieOk sampleHeap).deletes.map repoDelete.repo = ["a", "b"] ∧
    (repoErase ["2", "y"] none cookieOk sampleHeap).minh.length = 1 := by
  have h : promptRun ["2", "y"] = promptState.validated 2 := by decide
  have hd : heapDrain repoLe sampleHeap = [mkItem 1 "a" 2, mkItem 2 "b" 5, mkItem 3 "c" 5] := by
    norm_num [sampleHeap, heapPush, heapDrain_cons, heapDrain_nil, extractMin, repoLe, mkItem,
      mkRepo]
  obtain ⟨h1, h2, _, _, h5⟩ :=
    repoErase_pops ["2", "y"] 2 cookieOk sampleHeap h (by decide) (by decide)
      (fun _ => ⟨"sid", rfl⟩)
  refine ⟨h, h1, ?_, ?_⟩
  · rw [h2, hd]
    simp [mkItem, mkRepo]
  · rw [h5]
    simp [sampleHeap, heapPush]

/-- C7 (counterexample): when the input ends right after the parsed number 5,
or when there is no input at all, `repoErase` returns the out-of-range error,
not nil. -/
theorem repoErase_eof_returns_error :
    promptRun ["5"] = promptState.awaitingConfirmation 5 ∧
    (repoErase ["5"] none cookieOk sampleHeap).status
      = runStatus.returned (some eraseError.outOfRange) ∧
    promptRun [] = promptState.awaitingNumber ∧
    (repoErase [] none cookieOk sampleHeap).status
      = runStatus.returned (some eraseError.outOfRange) ∧
    runStatus.returned (some eraseError.outOfRange) ≠ runStatus.returned none := by
  refine ⟨by decide, ?_, by decide, ?_, by decide⟩
  · have h : promptLoop ["5"] = 0 := by decide
    simp [repoErase, h]
  · simp [repoErase, promptLoop]

/-- C7 (amended): when the input stream ends before a confirmation has been
given, `repoErase` issues no deletion request, leaves the heap untouched and
returns an error: the out-of-range error when the scanner reports no read
error (`num` is still 0). -/
theorem repoErase_unconfirmed {F : Type} [LinearOrder F] (lines : List String)
    (scanErr : Option String) (cookieLoad : Nat → Except String String) (minh : minheap F)
    (h : ∀ n, promptRun lines ≠ promptState.validated n) :
    (repoErase lines scanErr cookieLoad minh).deletes = [] ∧
    (repoErase lines scanErr cookieLoad minh).minh = minh ∧
    (∃ e, (repoErase lines scanErr cookieLoad minh).status = runStatus.returned (some e)) ∧
    (scanErr = none →
      (repoErase lines scanErr cookieLoad minh).status
        = runStatus.returned (some eraseError.outOfRange)) := by
  have hnum : promptLoop lines = 0 := promptLoop_of_not_validated lines h
  cases scanErr with
  | some e => exact ⟨rfl, rfl, ⟨_, rfl⟩, fun hs => by cases hs⟩
  | none => simp [repoErase, hnum]

/-- C7 (witness): the input `7`, `n`, `3` ends while a confirmation is awaited. -/
theorem repoErase_unconfirmed_witness :
    (∀ n, promptRun ["7", "n", "3"] ≠ promptState.validated n) ∧
    (repoErase ["7", "n", "3"] none cookieOk sampleHeap).deletes = [] ∧
    (repoErase ["7", "n", "3"] none cookieOk sampleHeap).status
      = runStatus.returned (some eraseError.outOfRange) := by
  have h : ∀ n, promptRun ["7", "n", "3"] ≠ promptState.validated n := by
    intro n
    have hr : promptRun ["7", "n", "3"] = promptState.awaitingConfirmation 3 := by decide
    rw [hr]
    exact fun hc => by cases hc
  obtain ⟨h1, _, _, h4⟩ := repoErase_unconfirmed ["7", "n", "3"] none cookieOk sampleHeap h
  exact ⟨h, h1, h4 rfl⟩

/-! ## Tag eviction -/

theorem lt_goInt_iff (D : Int) (x : ℚ) (hD : 0 ≤ D) : D < goInt x ↔ (D : ℚ) + 1 ≤ x := by
  rcases le_or_lt 0 x with hx | hx
  · rw [goInt_of_nonneg x hx, Int.lt_iff_add_one_le, Int.le_floor]
    push_cast
    rfl
  · have h1 : goInt x = -goInt (-x) := by rw [goInt_neg, neg_neg]
    have h2 : (0 : ℚ) ≤ -x := by linarith
    have h3 : (0 : Int) ≤ ⌊-x⌋ := Int.floor_nonneg.mpr h2
    have hDq : (0 : ℚ) ≤ (D : ℚ) := by exact_mod_cast hD
    rw [h1, goInt_of_nonneg _ h2]
    constructor
    · intro h; omega
    · intro h; linarith

theorem starredNames_append (a b : List tagPrint) :
    starredNames (a ++ b) = starredNames a ++ starredNames b := by
  induction a with
  | nil => rfl
  | cons x xs ih =>
    cases x with
    | row st name d => cases st <;> simp [starredNames, ih]
    | counts y o => simp [starredNames, ih]
    | doNothing => simp [starredNames, ih]
    | startDeleting => simp [starredNames, ih]
    | pop name ts => simp [starredNames, ih]
    | deleteURL rp tg => simp [starredNames, ih]
    | dryRunNotice => simp [starredNames, ih]

theorem poppedNames_append (a b : List tagPrint) :
    poppedNames (a ++ b) = poppedNames a ++ poppedNames b := by
  induction a with
  | nil => rfl
  | cons x xs ih =>
    cases x with
    | row st name d => simp [poppedNames, ih]
    | counts y o => simp [poppedNames, ih]
    | doNothing => simp [poppedNames, ih]
    | startDeleting => simp [poppedNames, ih]
    | pop name ts => simp [poppedNames, ih]
    | deleteURL rp tg => simp [poppedNames, ih]
    | dryRunNotice => simp [poppedNames, ih]

/-- The partition returns on tags with well-formed timestamps, and issues no
deletion request. -/
theorem tagPartition_total (Day : Int) (tags : List (Int × tagInfo)) (s : tagState)
    (hv : ∀ p ∈ tags, ∃ c, p.2.Created = TimeString.valid c) :
    ∃ s1, tagPartition Day tags s = some s1 ∧ s1.deletes = s.deletes := by
  induction tags generalizing s with
  | nil => exact ⟨s, rfl, rfl⟩
  | cons p rest ih =>
    obtain ⟨now, t⟩ := p
    obtain ⟨c, hc⟩ := hv (now, t) (List.mem_cons_self _ _)
    have hc2 : t.Created = TimeString.valid c := hc
    have hrest : ∀ q ∈ rest, ∃ c, q.2.Created = TimeString.valid c :=
      fun q hq => hv q (List.mem_cons_of_mem _ hq)
    by_cases hcand : Day < goInt (daysSince now c)
    · obtain ⟨s1, h1, h2⟩ := ih
        { s with
          tagmh := heapPush { tagName := t.Name, timestamp := timeUnix c } s.tagmh
          out := s.out ++ [tagPrint.row true t.Name (daysSince now c)] } hrest
      refine ⟨s1, ?_, h2⟩
      simp only [tagPartition, hc2, rfc3339Transform, hcand, if_true]
      exact h1
    · obtain ⟨s1, h1, h2⟩ := ih
        { s with out := s.out ++ [tagPrint.row false t.Name (daysSince now c)] } hrest
      refine ⟨s1, ?_, h2⟩
      simp only [tagPartition, hc2, rfc3339Transform, hcand, if_false]
      exact h1

/-- The body of the repository loop once the partition has returned `s1`. -/
theorem tagRepo_of_partition (cfg : tagsRetentionPolicy) (session : String) (r : repoSearch)
    (tags : List (Int × tagInfo)) (s s1 : tagState)
    (h : tagPartition cfg.Day tags { s with tagmh := [] } = some s1) :
    tagRepo cfg session r tags s
      = (if (tagEvict cfg session r s1).panicked then some runStatus.panicked else none,
         (tagEvict cfg session r s1).state) := by
  simp only [tagRepo, h]

/-- C2 (the code at the failing input): one tag created 30.5 days before now,
`--day 30 --max 0`, no `--dry-run`.  The age `dayPast = 30.5` exceeds the
threshold, so the tag was created more than 30 days ago, yet the test
`tagsRP.Day < int(dayPast)` is `30 < 30`: the partition does not push the tag,
prints its row without a star, counts it among the tags of less than 30 days
and the run deletes nothing. -/
theorem tagPartition_fractional_age_retained :
    daysSince hundredDays 6004800000000000 = 61 / 2 ∧
    ((30 : Int) : ℚ) < daysSince hundredDays 6004800000000000 ∧
    tagPartition 30 [(hundredDays, mkTag "T" 6004800000000000)] emptyTagState
      = some { tagmh := [], deletes := [], out := [tagPrint.row false "T" (61 / 2)] } ∧
    tagRepo { Day := 30, Max := 0, RepoName := "", DryRun := false } "sid"
        (mkSearch "library/app" 1) [(hundredDays, mkTag "T" 6004800000000000)] emptyTagState
      = (none,
         { tagmh := [], deletes := [],
           out := [tagPrint.row false "T" (61 / 2), tagPrint.counts 1 0, tagPrint.doNothing] }) := by
  have hd : daysSince hundredDays 6004800000000000 = 61 / 2 := fixture_ages.2.2.2.1
  have hg2 : goInt (61 / 2 : ℚ) = 30 := fixture_truncations.2.2.1
  have hp : tagPartition 30 [(hundredDays, mkTag "T" 6004800000000000)]
      { tagmh := [], deletes := [], out := [] }
      = some { tagmh := [], deletes := [], out := [tagPrint.row false "T" (61 / 2)] } := by
    simp [tagPartition, rfc3339Transform, mkTag, hd, hg2]
  refine ⟨hd, ?_, ?_, ?_⟩
  · rw [hd]; norm_num
  · simpa [emptyTagState] using hp
  · rw [tagRepo_of_partition { Day := 30, Max := 0, RepoName := "", DryRun := false } "sid"
      (mkSearch "library/app" 1) [(hundredDays, mkTag "T" 6004800000000000)] emptyTagState _ hp]
    simp [tagEvict, mkSearch]

/-- What the partition does, on the truncated age: for every list of tags
with well-formed timestamps, every reading of the clock and every threshold
`D`, the partition returns, and the heap receives exactly the tags with
`D < int(dayPast)` (each once, whatever the heap held before), the other tags
being retained; the starred rows of the table name the same tags.  For
`D >= 0` the condition `D < int(dayPast)` is `dayPast >= D + 1` on the
`float64` age. -/
theorem tagPartition_candidates (Day : Int) (tags : List (Int × tagInfo)) (s : tagState)
    (hv : ∀ p ∈ tags, ∃ c, p.2.Created = TimeString.valid c) :
    ∃ s1, tagPartition Day tags s = some s1 ∧
      s1.tagmh.Perm ((tags.filter (isCandidate Day)).map toTagItem ++ s.tagmh) ∧
      s1.tagmh.length + (tags.filter (fun p => !isCandidate Day p)).length
        = tags.length + s.tagmh.length ∧
      starredNames s1.out
        = starredNames s.out ++ (tags.filter (isCandidate Day)).map (fun p => p.2.Name) ∧
      s1.deletes = s.deletes ∧
      (∀ p ∈ tags, ∀ c, p.2.Created = TimeString.valid c →
        (isCandidate Day p = true ↔ Day < goInt (daysSince p.1 c))) ∧
      (∀ (now c : Int), 0 ≤ Day →
        (Day < goInt (daysSince now c) ↔ (Day : ℚ) + 1 ≤ daysSince now c)) := by
  have hlast : ∀ (now c : Int), 0 ≤ Day →
      (Day < goInt (daysSince now c) ↔ (Day : ℚ) + 1 ≤ daysSince now c) :=
    fun now c hD => lt_goInt_iff Day _ hD
  induction tags generalizing s with
  | nil =>
    exact ⟨s, rfl, by simp, by simp, by simp, rfl, by simp, hlast⟩
  | cons p rest ih =>
    obtain ⟨now, t⟩ := p
    obtain ⟨c, hc⟩ := hv (now, t) (List.mem_cons_self _ _)
    have hc2 : t.Created = TimeString.valid c := hc
    have hrest : ∀ q ∈ rest, ∃ c, q.2.Created = TimeString.valid c :=
      fun q hq => hv q (List.mem_cons_of_mem _ hq)
    have hiff : ∀ q ∈ (now, t) :: rest, ∀ c2, q.2.Created = TimeString.valid c2 →
        (isCandidate Day q = true ↔ Day < goInt (daysSince q.1 c2)) := by
      intro q _ c2 hq
      simp [isCandidate, hq, rfc3339Transform]
    by_cases hcand : Day < goInt (daysSince now c)
    · have hic : isCandidate Day (now, t) = true := by
        simp [isCandidate, hc2, rfc3339Transform, hcand]
      obtain ⟨s1, h1, h2, h3, h4, h5, _, _⟩ := ih
        { s with
          tagmh := heapPush { tagName := t.Name, timestamp := timeUnix c } s.tagmh
          out := s.out ++ [tagPrint.row true t.Name (daysSince now c)] } hrest
      refine ⟨s1, ?_, ?_, ?_, ?_, h5, hiff, hlast⟩
      · simp only [tagPartition, hc2, rfc3339Transform, hcand, if_true]
        exact h1
      · refine h2.trans ?_
        simp only [List.filter_cons, hic, if_true, List.map_cons, List.cons_append, heapPush]
        have hti : toTagItem (now, t) = { tagName := t.Name, timestamp := timeUnix c } := by
          simp [toTagItem, hc2, rfc3339Transform]
        rw [hti]
        exact List.perm_middle
      · simp [List.filter_cons, hic, heapPush] at h3 ⊢
        omega
      · rw [h4]
        simp [starredNames_append, starredNames, List.filter_cons, hic]
    · have hic : isCandidate Day (now, t) = false := by
        simp [isCandidate, hc2, rfc3339Transform, hcand]
      obtain ⟨s1, h1, h2, h3, h4, h5, _, _⟩ := ih
        { s with out := s.out ++ [tagPrint.row false t.Name (daysSince now c)] } hrest
      refine ⟨s1, ?_, ?_, ?_, ?_, h5, hiff, hlast⟩
      · simp only [tagPartition, hc2, rfc3339Transform, hcand, if_false]
        exact h1
      · simpa [List.filter_cons, hic] using h2
      · simp [List.filter_cons, hic] at h3 ⊢
        omega
      · rw [h4]
        simp [starredNames_append, starredNames, List.filter_cons, hic]

theorem scenarioTags_valid : ∀ p ∈ scenarioTags, ∃ c, p.2.Created = TimeString.valid c := by
  intro p hp
  simp only [scenarioTags, List.mem_cons, List.mem_singleton, List.not_mem_nil, or_false] at hp
  rcases hp with h | h | h <;> subst h <;> exact ⟨_, rfl⟩

theorem scenario_partition :
    tagPartition 30 scenarioTags emptyTagState
      = some
          { tagmh := [{ tagName := "C", timestamp := 4320000 },
                      { tagName := "A", timestamp := 5184000 }]
            deletes := []
            out := [tagPrint.row true "A" 40, tagPrint.row false "B" 20,
                    tagPrint.row true "C" 50] } := by
  obtain ⟨_, _, _, _, hA, hB, hC⟩ := fixture_ages
  obtain ⟨_, _, _, gA, gB, gC⟩ := fixture_truncations
  simp [scenarioTags, tagPartition, rfc3339Transform, mkTag, emptyTagState, hA, hB, hC, gA, gB,
    gC, heapPush, timeUnix]

/-- The eviction loop started with the counter equal to the heap size and a
cap that is not negative: it never pops an empty heap, runs `n = K - M` times
and deletes the first `n` tags of the pop order. -/
theorem evictLoop_spec (repo session : String) (Max : Int) (hM : 0 ≤ Max) :
    ∀ (n : Nat) (gtNdays : Int) (s : tagState),
      gtNdays = (s.tagmh.length : Int) → (gtNdays - Max).toNat = n →
      (evictLoop repo session Max gtNdays s).panicked = false ∧
      (evictLoop repo session Max gtNdays s).gtNdays = gtNdays - n ∧
      (evictLoop repo session Max gtNdays s).state.tagmh.length = s.tagmh.length - n ∧
      (evictLoop repo session Max gtNdays s).state.deletes
        = s.deletes ++ ((heapDrain tagLe s.tagmh).take n).map
            (fun it => { repo := repo, tag := it.tagName, session := session }) ∧
      heapDrain tagLe (evictLoop repo session Max gtNdays s).state.tagmh
        = (heapDrain tagLe s.tagmh).drop n ∧
      poppedNames (evictLoop repo session Max gtNdays s).state.out
        = poppedNames s.out ++ ((heapDrain tagLe s.tagmh).take n).map (fun it => it.tagName) := by
  intro n
  induction n with
  | zero =>
    intro gtNdays s _ hn
    have hle : ¬ Max < gtNdays := by omega
    rw [evictLoop]
    simp [hle]
  | succ n ih =>
    intro gtNdays s hK hn
    have hlt : Max < gtNdays := by omega
    obtain ⟨heap, dels, out⟩ := s
    cases heap with
    | nil =>
      simp only [List.length_nil] at hK
      omega
    | cons x xs =>
      simp only [List.length_cons] at hK
      have hK2 : gtNdays - 1 = ((extractMin tagLe x xs).2.length : Int) := by
        rw [extractMin_length]
        push_cast at hK
        omega
      have hn2 : (gtNdays - 1 - Max).toNat = n := by omega
      rw [evictLoop]
      simp only [hlt, if_true, heapPop]
      obtain ⟨h1, h2, h3, h4, h5, h6⟩ := ih (gtNdays - 1)
        { tagmh := (extractMin tagLe x xs).2
          deletes := dels ++ [{ repo := repo, tag := (extractMin tagLe x xs).1.tagName,
                                session := session }]
          out := out ++ [tagPrint.pop (extractMin tagLe x xs).1.tagName
                            (extractMin tagLe x xs).1.timestamp,
                         tagPrint.deleteURL repo (extractMin tagLe x xs).1.tagName] } hK2 hn2
      refine ⟨h1, ?_, ?_, ?_, ?_, ?_⟩
      · rw [h2]; push_cast; omega
      · rw [h3]
        simp only [extractMin_length, List.length_cons]
        omega
      · rw [h4, heapDrain_cons]
        simp
      · rw [h5, heapDrain_cons]
        simp
      · rw [h6, heapDrain_cons]
        simp [poppedNames_append, poppedNames]

/-- C3 (counterexample): with `--max -1` and no `--dry-run` the eviction loop
pops an empty heap.  On a repository without tags it does so at once; on the
scenario tags it first deletes `C` and `A`. -/
theorem tagRepo_negative_cap_panics :
    (tagRepo { Day := 30, Max := -1, RepoName := "", DryRun := false } "sid"
        (mkSearch "library/app" 0) [] emptyTagState).1 = some runStatus.panicked ∧
    (tagRepo { Day := 30, Max := -1, RepoName := "", DryRun := false } "sid"
        (mkSearch "library/app" 3) scenarioTags emptyTagState).1 = some runStatus.panicked ∧
    (tagRepo { Day := 30, Max := -1, RepoName := "", DryRun := false } "sid"
        (mkSearch "library/app" 3) scenarioTags emptyTagState).2.deletes.map tagDelete.tag
      = ["C", "A"] := by
  have hr := tagRepo_of_partition { Day := 30, Max := -1, RepoName := "", DryRun := false }
    "sid" (mkSearch "library/app" 3) scenarioTags emptyTagState _ scenario_partition
  have h0 := tagRepo_of_partition { Day := 30, Max := -1, RepoName := "", DryRun := false }
    "sid" (mkSearch "library/app" 0) [] emptyTagState emptyTagState rfl
  refine ⟨?_, ?_, ?_⟩
  · rw [h0]
    simp only [tagEvict, emptyTagState]
    rw [evictLoop]
    simp [heapPop]
  · rw [hr]
    simp [tagEvict, mkSearch, evictLoop, heapPop, extractMin, tagLe]
  · rw [hr]
    simp [tagEvict, mkSearch, evictLoop, heapPop, extractMin, tagLe]

theorem tagEvict_spec (cfg : tagsRetentionPolicy) (session : String) (r : repoSearch)
    (s : tagState) (hdry : cfg.DryRun = false) (hM : 0 ≤ cfg.Max) :
    (tagEvict cfg session r s).panicked = false ∧
    (tagEvict cfg session r s).gtNdays = min (s.tagmh.length : Int) cfg.Max ∧
    ((tagEvict cfg session r s).state.tagmh.length : Int) = min (s.tagmh.length : Int) cfg.Max ∧
    (tagEvict cfg session r s).state.deletes
      = s.deletes ++ ((heapDrain tagLe s.tagmh).take ((s.tagmh.length : Int) - cfg.Max).toNat).map
          (fun it => { repo := r.RepositoryName, tag := it.tagName, session := session }) ∧
    heapDrain tagLe (tagEvict cfg session r s).state.tagmh
      = (heapDrain tagLe s.tagmh).drop ((s.tagmh.length : Int) - cfg.Max).toNat := by
  by_cases hle : (s.tagmh.length : Int) ≤ cfg.Max
  · have hz : ((s.tagmh.length : Int) - cfg.Max).toNat = 0 := by omega
    simp only [tagEvict, hle, if_true, hz, List.take_zero, List.map_nil, List.append_nil,
      List.drop_zero]
    refine ⟨trivial, ?_, ?_, trivial, trivial⟩ <;> omega
  · obtain ⟨h1, h2, h3, h4, h5, _⟩ :=
      evictLoop_spec r.RepositoryName session cfg.Max hM
        ((s.tagmh.length : Int) - cfg.Max).toNat (s.tagmh.length : Int)
        { s with
          out := s.out ++ [tagPrint.counts (r.TagsCount - (s.tagmh.length : Int))
                            (s.tagmh.length : Int)] ++ [tagPrint.startDeleting] }
        rfl rfl
    dsimp only at h2 h3 h4 h5
    simp only [tagEvict, hle, if_false, hdry, if_true]
    refine ⟨h1, ?_, ?_, h4, h5⟩
    · rw [h2]; omega
    · rw [h3]; omega

/-- C3 (amended): for every list of tags with well-formed timestamps, every
threshold `D` and every cap `M >= 0`, the eviction phase without `--dry-run`
completes without popping an empty heap; its counter ends at `min(K, M)`,
hence at `M` whenever it started with `K > M`; it issues exactly
`max(0, K - M)` deletion requests, for the first tags of the pop order; and
the heap it leaves has `min(K, M) <= M` elements. -/
theorem tagRepo_evicts_to_cap (cfg : tagsRetentionPolicy) (session : String) (r : repoSearch)
    (tags : List (Int × tagInfo)) (s : tagState)
    (hv : ∀ p ∈ tags, ∃ c, p.2.Created = TimeString.valid c)
    (hdry : cfg.DryRun = false) (hM : 0 ≤ cfg.Max) :
    ∃ s1, tagPartition cfg.Day tags { s with tagmh := [] } = some s1 ∧
      (tagRepo cfg session r tags s).1 = none ∧
      (tagEvict cfg session r s1).gtNdays = min (s1.tagmh.length : Int) cfg.Max ∧
      (cfg.Max < (s1.tagmh.length : Int) → (tagEvict cfg session r s1).gtNdays = cfg.Max) ∧
      (tagRepo cfg session r tags s).2.deletes
        = s.deletes ++
            ((heapDrain tagLe s1.tagmh).take ((s1.tagmh.length : Int) - cfg.Max).toNat).map
              (fun it => { repo := r.RepositoryName, tag := it.tagName, session := session }) ∧
      (tagRepo cfg session r tags s).2.deletes.length
        = s.deletes.length + ((s1.tagmh.length : Int) - cfg.Max).toNat ∧
      heapDrain tagLe (tagRepo cfg session r tags s).2.tagmh
        = (heapDrain tagLe s1.tagmh).drop ((s1.tagmh.length : Int) - cfg.Max).toNat ∧
      ((tagRepo cfg session r tags s).2.tagmh.length : Int)
        = min (s1.tagmh.length : Int) cfg.Max ∧
      ((tagRepo cfg session r tags s).2.tagmh.length : Int) ≤ cfg.Max := by
  obtain ⟨s1, hp, hdel⟩ := tagPartition_total cfg.Day tags { s with tagmh := [] } hv
  obtain ⟨h1, h2, h3, h4, h5⟩ := tagEvict_spec cfg session r s1 hdry hM
  have hrepo : tagRepo cfg session r tags s
      = (none, (tagEvict cfg session r s1).state) := by
    simp [tagRepo, hp, h1]
  have hdel2 : s1.deletes = s.deletes := hdel
  refine ⟨s1, hp, ?_, h2, ?_, ?_, ?_, ?_, ?_, ?_⟩
  · rw [hrepo]
  · intro hlt
    rw [h2]
    omega
  · rw [hrepo]
    simp only [h4, hdel2]
  · rw [hrepo]
    simp only [h4, hdel2, List.length_append, List.length_map, List.length_take,
      (heapDrain_perm tagLe s1.tagmh).length_eq]
    omega
  · rw [hrepo]
    exact h5
  · rw [hrepo]
    exact h3
  · rw [hrepo]
    simp only [h3]
    omega

/-- C3 (witness): the scenario tags with `--day 30 --max 1`: `C` is deleted and
`A` remains. -/
theorem tagRepo_evicts_to_cap_witness :
    (∀ p ∈ scenarioTags, ∃ c, p.2.Created = TimeString.valid c) ∧
    (scenarioFlags false).DryRun = false ∧ 0 ≤ (scenarioFlags false).Max ∧
    (tagRepo (scenarioFlags false) "sid" (mkSearch "library/app" 3) scenarioTags
        emptyTagState).1 = none ∧
    (tagRepo (scenarioFlags false) "sid" (mkSearch "library/app" 3) scenarioTags
        emptyTagState).2.deletes
      = [{ repo := "library/app", tag := "C", session := "sid" }] ∧
    (tagRepo (scenarioFlags false) "sid" (mkSearch "library/app" 3) scenarioTags
        emptyTagState).2.tagmh = [{ tagName := "A", timestamp := 5184000 }] := by
  obtain ⟨s1, h1, h2, _, _, h5, _, _, _, _⟩ :=
    tagRepo_evicts_to_cap (scenarioFlags false) "sid" (mkSearch "library/app" 3) scenarioTags
      emptyTagState scenarioTags_valid rfl (by decide)
  have hr := tagRepo_of_partition (scenarioFlags false) "sid" (mkSearch "library/app" 3)
    scenarioTags emptyTagState _ scenario_partition
  refine ⟨scenarioTags_valid, rfl, by decide, h2, ?_, ?_⟩
  · rw [hr]
    simp [tagEvict, scenarioFlags, mkSearch, evictLoop, heapPop, extractMin, tagLe]
  · rw [hr]
    simp [tagEvict, scenarioFlags, mkSearch, evictLoop, heapPop, extractMin, tagLe]

/-- C6 (counterexample): the scenario tags with `--day 30 --max 1 --dry-run`.
One candidate exceeds the cap (`K - M = 1`), but the eviction phase prints no
line naming a tag: after the table it prints the counts, the start line and
the dry-run notice.  The only marks are the stars of the table, on both
candidates `A` and `C`.  Nothing names `C` as the tag that would be deleted. -/
theorem tagRepo_dryRun_reports_nothing :
    (tagRepo (scenarioFlags true) "sid" (mkSearch "library/app" 3) scenarioTags
        emptyTagState).2.out
      = [tagPrint.row true "A" 40, tagPrint.row false "B" 20, tagPrint.row true "C" 50,
         tagPrint.counts 1 2, tagPrint.startDeleting, tagPrint.dryRunNotice] ∧
    poppedNames (tagRepo (scenarioFlags true) "sid" (mkSearch "library/app" 3) scenarioTags
        emptyTagState).2.out = [] ∧
    starredNames (tagRepo (scenarioFlags true) "sid" (mkSearch "library/app" 3) scenarioTags
        emptyTagState).2.out = ["A", "C"] ∧
    ((tagRepo (scenarioFlags true) "sid" (mkSearch "library/app" 3) scenarioTags
        emptyTagState).2.tagmh.length : Int) - (scenarioFlags true).Max = 1 := by
  have hr := tagRepo_of_partition (scenarioFlags true) "sid" (mkSearch "library/app" 3)
    scenarioTags emptyTagState _ scenario_partition
  have hout : (tagRepo (scenarioFlags true) "sid" (mkSearch "library/app" 3) scenarioTags
        emptyTagState).2
      = { tagmh := [{ tagName := "C", timestamp := 4320000 },
                    { tagName := "A", timestamp := 5184000 }]
          deletes := []
          out := [tagPrint.row true "A" 40, tagPrint.row false "B" 20, tagPrint.row true "C" 50,
                  tagPrint.counts 1 2, tagPrint.startDeleting, tagPrint.dryRunNotice] } := by
    rw [hr]
    simp [tagEvict, scenarioFlags, mkSearch]
  rw [hout]
  refine ⟨rfl, ?_, ?_, ?_⟩
  · simp [poppedNames]
  · simp [starredNames]
  · simp [scenarioFlags]

/-- C6 (amended): in dry-run mode, for every list of tags with well-formed
timestamps, every threshold `D` and every cap `M`, the eviction phase
completes, issues no deletion request and leaves the eviction heap and the
candidate count `K` unchanged; it prints no would-delete entry: after the
counts it prints the do-nothing line when `K <= M`, and the start line
followed by the dry-run notice when `K > M`. -/
theorem tagRepo_dryRun (cfg : tagsRetentionPolicy) (session : String) (r : repoSearch)
    (tags : List (Int × tagInfo)) (s : tagState)
    (hv : ∀ p ∈ tags, ∃ c, p.2.Created = TimeString.valid c) (hdry : cfg.DryRun = true) :
    ∃ s1, tagPartition cfg.Day tags { s with tagmh := [] } = some s1 ∧
      (tagRepo cfg session r tags s).1 = none ∧
      (tagRepo cfg session r tags s).2.deletes = s.deletes ∧
      (tagRepo cfg session r tags s).2.tagmh = s1.tagmh ∧
      (tagEvict cfg session r s1).gtNdays = (s1.tagmh.length : Int) ∧
      ((s1.tagmh.length : Int) ≤ cfg.Max →
        (tagRepo cfg session r tags s).2.out
          = s1.out ++ [tagPrint.counts (r.TagsCount - (s1.tagmh.length : Int))
                        (s1.tagmh.length : Int), tagPrint.doNothing]) ∧
      (cfg.Max < (s1.tagmh.length : Int) →
        (tagRepo cfg session r tags s).2.out
          = s1.out ++ [tagPrint.counts (r.TagsCount - (s1.tagmh.length : Int))
                        (s1.tagmh.length : Int), tagPrint.startDeleting,
                       tagPrint.dryRunNotice]) := by
  obtain ⟨s1, hp, hdel⟩ := tagPartition_total cfg.Day tags { s with tagmh := [] } hv
  have hdel2 : s1.deletes = s.deletes := hdel
  refine ⟨s1, hp, ?_⟩
  by_cases hle : (s1.tagmh.length : Int) ≤ cfg.Max
  · have hnlt : ¬ cfg.Max < (s1.tagmh.length : Int) := by omega
    simp [tagRepo, hp, tagEvict, hle, hdel2, hnlt]
  · have hlt : cfg.Max < (s1.tagmh.length : Int) := by omega
    simp [tagRepo, hp, tagEvict, hle, hdry, hdel2, hlt]

/-- C6 (witness): the scenario tags in dry-run mode. -/
theorem tagRepo_dryRun_witness :
    (∀ p ∈ scenarioTags, ∃ c, p.2.Created = TimeString.valid c) ∧
    (scenarioFlags true).DryRun = true ∧
    (tagRepo (scenarioFlags true) "sid" (mkSearch "library/app" 3) scenarioTags
        emptyTagState).1 = none ∧
    (tagRepo (scenarioFlags true) "sid" (mkSearch "library/app" 3) scenarioTags
        emptyTagState).2.deletes = [] := by
  obtain ⟨_, _, h2, h3, _⟩ :=
    tagRepo_dryRun (scenarioFlags true) "sid" (mkSearch "library/app" 3) scenarioTags
      emptyTagState scenarioTags_valid rfl
  exact ⟨scenarioTags_valid, rfl, h2, h3⟩

/-- C8 (witness): three candidates pushed in the order `b` (score 5, id 2),
`a` (score 2, id 1), `c` (score 5, id 3) are popped in the order `a`, `b`, `c`. -/
theorem ranking_heap_drain_sorted_witness :
    heapDrain repoLe
        ([mkItem 2 "b" 5, mkItem 1 "a" 2, mkItem 3 "c" 5].foldl (fun h it => heapPush it h) [])
      = [mkItem 1 "a" 2, mkItem 2 "b" 5, mkItem 3 "c" 5] ∧
    (heapDrain repoLe
        ([mkItem 2 "b" 5, mkItem 1 "a" 2, mkItem 3 "c" 5].foldl (fun h it => heapPush it h) [])).Perm
      [mkItem 2 "b" 5, mkItem 1 "a" 2, mkItem 3 "c" 5] := by
  refine ⟨?_, ((@ranking_heap_drain_sorted ℚ _ _).1 _).1⟩
  norm_num [heapPush, heapDrain_cons, heapDrain_nil, extractMin, repoLe, mkItem, mkRepo]

end RetentionPolicy
